import Mathlib

/-!
Verification of the keyword-to-field extraction engine of `pdf_search.py`.

The Python source is embedded shallowly over `List Char`:
* Python strings become `List Char`; slicing, `find`, `strip`, `lower`,
  `replace` become the corresponding list functions below.
* Each `re.search` call is translated into an explicit backtracking scanner
  that follows the leftmost-match / greedy / lazy semantics of the concrete
  pattern it models (the patterns only combine literals, character classes,
  `*`/`+`/`?` and one lazy `.*?`, so the encodings below are exact).
* Character classes: `\d` is modelled as ASCII digits, `\w` as ASCII
  alphanumerics plus underscore plus the Cyrillic block handled by
  `clean_cyrillic`, `\s` and `str.strip()` as the Unicode whitespace set;
  `str.lower()` is modelled as ASCII lowercasing.  Documents in scope use
  ASCII keywords, so the ASCII restrictions do not affect keyword scanning.
-/

/-- Characters removed by `clean_cyrillic`: the regex class
`[Ѐ-ӿԀ-ԯ]`. -/
def isCyrChar (c : Char) : Bool :=
  (0x400 ≤ c.toNat && c.toNat ≤ 0x4FF) || (0x500 ≤ c.toNat && c.toNat ≤ 0x52F)

/-- `clean_cyrillic`: `re.sub(r'[Ѐ-ӿԀ-ԯ]', '', text)`.
A single-character class substituted by the empty string is a filter. -/
def cleanCyrillic (l : List Char) : List Char :=
  l.filter (fun c => !isCyrChar c)

/-- The Unicode whitespace set used by Python's `str.strip()` and by `\s`
in `re` patterns over `str`. -/
def isPySpace (c : Char) : Bool :=
  let n := c.toNat
  (9 ≤ n && n ≤ 13) || (28 ≤ n && n ≤ 32) || n == 133 || n == 160 ||
    n == 5760 || (8192 ≤ n && n ≤ 8202) || n == 8232 || n == 8233 ||
    n == 8239 || n == 8287 || n == 12288

/-- `\d`: the decimal digits `'0'`-`'9'` (the documents in scope contain
only ASCII decimal digits). -/
def isPyDigit (c : Char) : Bool :=
  48 ≤ c.toNat && c.toNat ≤ 57

/-- `\w`: letters `A`-`Z`/`a`-`z`, digits, underscore, plus the Cyrillic
block handled by `clean_cyrillic` (other Unicode word characters do not
occur in the documents in scope). -/
def isPyWord (c : Char) : Bool :=
  (65 ≤ c.toNat && c.toNat ≤ 90) || (97 ≤ c.toNat && c.toNat ≤ 122) ||
    (48 ≤ c.toNat && c.toNat ≤ 57) || c.toNat == 95 || isCyrChar c

/-- Drop trailing whitespace, as the right half of `str.strip()`. -/
def stripTrailing (l : List Char) : List Char :=
  (l.reverse.dropWhile isPySpace).reverse

/-- `str.strip()`. -/
def pyStrip (l : List Char) : List Char :=
  stripTrailing (l.dropWhile isPySpace)

/-- `.replace('\n', ' ')`. -/
def replaceNl (l : List Char) : List Char :=
  l.map (fun c => if c == '\n' then ' ' else c)

/-- `str.lower()` (ASCII; the scanned keywords are ASCII). -/
def lowerL (l : List Char) : List Char := l.map Char.toLower

/-- Position of the first occurrence of `nee` in `s`, if any. -/
def firstOcc (nee : List Char) : List Char → Option Nat
  | [] => if nee.isEmpty then some 0 else none
  | c :: rest =>
    if nee.isPrefixOf (c :: rest) then some 0
    else (firstOcc nee rest).map (· + 1)

/-- `hay.find(nee, start)` for a nonempty needle: the least index `i ≥ start`
where `nee` occurs in `hay` (`none` for Python's `-1`). -/
def pyFind (hay nee : List Char) (start : Nat) : Option Nat :=
  (firstOcc nee (hay.drop start)).map (· + start)

/-- Match a literal at the current position; on success return the rest. -/
def stripLit (lit s : List Char) : Option (List Char) :=
  if lit.isPrefixOf s then some (s.drop lit.length) else none

/-- `re.search` start-position loop: try the matcher at every suffix, left
to right, returning the first success. -/
def reSearch (f : List Char → Option (List Char)) : List Char → Option (List Char)
  | [] => f []
  | c :: rest =>
    match f (c :: rest) with
    | some r => some r
    | none => reSearch f rest

/-- Lazy `.*?`: try the continuation at the shortest extension first; `.`
does not match a newline, so the scan stops at `'\n'`. -/
def lazyScan (f : List Char → Option (List Char)) : List Char → Option (List Char)
  | [] => f []
  | c :: rest =>
    match f (c :: rest) with
    | some r => some r
    | none => if c == '\n' then none else lazyScan f rest

/-- Tail of the invoice-number pattern at a fixed position:
`№\s*(\d+\s*/\s*\d+)`; returns the capture group.  The classes `\s`, `\d`
and the literal `/` are pairwise disjoint, so the greedy quantifiers admit
no backtracking and maximal munch is exact. -/
def invNumTail (s : List Char) : Option (List Char) :=
  match s with
  | [] => none
  | c :: rest =>
    if c == '№' then
      let r0 := rest.dropWhile isPySpace
      let d1 := r0.takeWhile isPyDigit
      let r1 := r0.dropWhile isPyDigit
      if d1.isEmpty then none
      else
        let w1 := r1.takeWhile isPySpace
        match r1.dropWhile isPySpace with
        | '/' :: r2 =>
          let w2 := r2.takeWhile isPySpace
          let d2 := (r2.dropWhile isPySpace).takeWhile isPyDigit
          if d2.isEmpty then none
          else some (d1 ++ w1 ++ '/' :: (w2 ++ d2))
        | _ => none
    else none

/-- `extract_invoice_number`: `re.search(r'Invoice.*?№\s*(\d+\s*/\s*\d+)', text)`,
then `f"№ {clean_cyrillic(group).strip()}"`; `""` on no match. -/
def extract_invoice_number (text : List Char) : List Char :=
  match reSearch (fun t => stripLit ("Invoice".data) t >>= lazyScan invNumTail) text with
  | some g => ("№ ".data) ++ pyStrip (cleanCyrillic g)
  | none => []

/-- The date shape `\d{2}\.\d{2}\.\d{4}` as a predicate on a 10-character
candidate. -/
def isDateShape (l : List Char) : Bool :=
  match l with
  | [a, b, c, d, e, f, g, h, i, j] =>
    isPyDigit a && isPyDigit b && c == '.' && isPyDigit d && isPyDigit e &&
      f == '.' && isPyDigit g && isPyDigit h && isPyDigit i && isPyDigit j
  | _ => false

/-- Tail of the date pattern at a fixed position: `(\d{2}\.\d{2}\.\d{4})`
matches exactly when the next ten characters have the date shape. -/
def dateShapeAt (s : List Char) : Option (List Char) :=
  let m := s.take 10
  if isDateShape m then some m else none

/-- `extract_invoice_date`: `re.search(r'Date of invoice.*?(\d{2}\.\d{2}\.\d{4})', text)`,
returning the captured date verbatim; `""` on no match. -/
def extract_invoice_date (text : List Char) : List Char :=
  match reSearch (fun t => stripLit ("Date of invoice".data) t >>= lazyScan dateShapeAt) text with
  | some g => g
  | none => []

/-- Tail of the supplier pattern at a fixed position: `\s+([^,]+)`.
Greedy `\s+` first takes the whole whitespace run; if no non-comma
character follows, the regex engine backtracks one whitespace character
(which is itself in `[^,]`) to make the capture nonempty. -/
def supplierTail (s : List Char) : Option (List Char) :=
  let w := s.takeWhile isPySpace
  let r := s.dropWhile isPySpace
  if w.isEmpty then none
  else
    let cap := r.takeWhile (fun c => c != ',')
    if !cap.isEmpty then some cap
    else
      match w.reverse with
      | lc :: _ :: _ => some [lc]
      | _ => none

/-- `extract_supplier`: `re.search(r'Supplier\s+([^,]+)', text)`, then
`clean_cyrillic(group.strip())`; `""` on no match. -/
def extract_supplier (text : List Char) : List Char :=
  match reSearch (fun t => stripLit ("Supplier".data) t >>= supplierTail) text with
  | some g => cleanCyrillic (pyStrip g)
  | none => []

/-- Tail of the price pattern at a fixed position: `\s*(\d+\.?\d*)`.
Nothing follows the capture, so the greedy quantifiers are maximal munch. -/
def priceTail (s : List Char) : Option (List Char) :=
  let r := s.dropWhile isPySpace
  let d1 := r.takeWhile isPyDigit
  if d1.isEmpty then none
  else
    match r.dropWhile isPyDigit with
    | '.' :: r2 => some (d1 ++ '.' :: r2.takeWhile isPyDigit)
    | _ => some d1

/-- `extract_price`: `re.search(r'Price of the services rendered:\s*(\d+\.?\d*)', text)`,
then `group.strip()`; `""` on no match. -/
def extract_price (text : List Char) : List Char :=
  match reSearch (fun t => stripLit ("Price of the services rendered:".data) t >>= priceTail) text with
  | some g => pyStrip g
  | none => []

/-- Tail of the currency pattern at a fixed position: `\s*(\w+)`. -/
def currencyTail (s : List Char) : Option (List Char) :=
  let r := s.dropWhile isPySpace
  let w := r.takeWhile isPyWord
  if w.isEmpty then none else some w

/-- `extract_currency`: `re.search(r'Currency:\s*(\w+)', text)`, then
`clean_cyrillic(group).strip()`; `""` on no match. -/
def extract_currency (text : List Char) : List Char :=
  match reSearch (fun t => stripLit ("Currency:".data) t >>= currencyTail) text with
  | some g => pyStrip (cleanCyrillic g)
  | none => []

/-- `process_match`: dispatch on the keyword, as the source's `if`/`elif`
chain of `startswith` and equality tests. -/
def process_match (keyword matched : List Char) : List Char :=
  if ("Invoice".data).isPrefixOf keyword then extract_invoice_number matched
  else if ("Date of invoice:".data).isPrefixOf keyword then extract_invoice_date matched
  else if keyword = "Supplier".data then extract_supplier matched
  else if keyword = "Price of the services rendered:".data then extract_price matched
  else if keyword = "Currency:".data then extract_currency matched
  else cleanCyrillic matched

/-- Bridge between the executable `List.isPrefixOf` and the `<+:` relation. -/
lemma prefixOf_iff {l₁ l₂ : List Char} : l₁.isPrefixOf l₂ = true ↔ l₁ <+: l₂ :=
  List.isPrefixOf_iff_prefix

/-- A successful `firstOcc` points at an occurrence, and at the least one. -/
lemma firstOcc_some {nee s : List Char} {p : Nat} (h : firstOcc nee s = some p) :
    nee.isPrefixOf (s.drop p) = true ∧ ∀ q, q < p → nee.isPrefixOf (s.drop q) = false := by
  induction s generalizing p with
  | nil =>
    by_cases hne : nee.isEmpty
    · have hp0 : p = 0 := by simpa [firstOcc, hne] using h.symm
      subst hp0
      refine ⟨?_, fun q hq => absurd hq (Nat.not_lt_zero q)⟩
      rw [List.isEmpty_iff] at hne
      simp [hne, List.isPrefixOf]
    · simp [firstOcc, hne] at h
  | cons c rest ih =>
    by_cases h0 : nee.isPrefixOf (c :: rest) = true
    · have hp0 : p = 0 := by simpa [firstOcc, h0] using h.symm
      subst hp0
      exact ⟨h0, fun q hq => absurd hq (Nat.not_lt_zero q)⟩
    · rw [show firstOcc nee (c :: rest)
          = if nee.isPrefixOf (c :: rest) then some 0
            else (firstOcc nee rest).map (· + 1) from rfl, if_neg h0] at h
      match hp : firstOcc nee rest with
      | none => rw [hp] at h; cases h
      | some p' =>
        rw [hp] at h
        have hpp : p' + 1 = p := by simpa using h
        subst hpp
        obtain ⟨h1, h2⟩ := ih hp
        refine ⟨by simpa using h1, fun q hq => ?_⟩
        match q with
        | 0 => exact Bool.not_eq_true _ ▸ eq_false_of_ne_true h0
        | q' + 1 =>
          have hq' := h2 q' (by omega)
          simpa using hq'

/-- Position bounds for a successful `pyFind` with a nonempty needle. -/
lemma pyFind_bounds {hay nee : List Char} {start i : Nat} (hne : nee ≠ [])
    (h : pyFind hay nee start = some i) :
    start ≤ i ∧ i + nee.length ≤ hay.length := by
  unfold pyFind at h
  match hp : firstOcc nee (hay.drop start) with
  | none => rw [hp] at h; cases h
  | some p =>
    rw [hp] at h
    have hi : p + start = i := by simpa using h
    obtain ⟨h1, -⟩ := firstOcc_some hp
    have hlen : nee.length ≤ ((hay.drop start).drop p).length :=
      (prefixOf_iff.mp h1).length_le
    have hnee : 0 < nee.length := List.length_pos.mpr hne
    simp only [List.length_drop] at hlen
    omega

/-- The `Record` built by `search_pdf`: the file path and the five field
slots, initialized to empty strings. -/
structure Record where
  file_path : String
  date_of_invoice : List Char
  supplier : List Char
  invoice : List Char
  currency : List Char
  price_of_the_services_rendered : List Char
deriving DecidableEq, Repr

/-- The initial dictionary of `search_pdf` (all fields empty). -/
def initRecord (p : String) : Record :=
  ⟨p, [], [], [], [], []⟩

/-- Mutable state of the scan: the record under construction plus the
`supplier_found` flag. -/
structure SearchState where
  record : Record
  supplierFound : Bool
deriving DecidableEq, Repr

/-- The intermediate `full_context` string of `get_context`:
`text[pos:pos+200].replace('\n', ' ').strip()` at the first
case-insensitive occurrence of the keyword, if any. -/
def contextWindow (text keyword : List Char) : Option (List Char) :=
  match pyFind (lowerL text) (lowerL keyword) 0 with
  | none => none
  | some p => some (pyStrip (replaceNl ((text.drop p).take 200)))

/-- `get_context`: locate the keyword, carve the 200-character window and
run the keyword's extractor over it (`""` when the keyword is absent or
the extractor returns nothing). -/
def get_context (text keyword : List Char) : List Char :=
  match contextWindow text keyword with
  | none => []
  | some w => process_match keyword w

/-- The `elif` chain of `search_pdf` writing a non-empty context into the
keyword's column. -/
def assignField (keyword context : List Char) (r : Record) : Record :=
  if ("Invoice".data).isPrefixOf keyword then { r with invoice := context }
  else if ("Date of invoice:".data).isPrefixOf keyword then { r with date_of_invoice := context }
  else if keyword = "Supplier".data then { r with supplier := context }
  else if keyword = "Price of the services rendered:".data then
    { r with price_of_the_services_rendered := context }
  else if keyword = "Currency:".data then { r with currency := context }
  else r

/-- True exactly when the supplier branch of `search_pdf` fires: keyword
`"Supplier"` with a non-empty context (it sets `supplier_found` and
breaks out of the occurrence loop). -/
def isSupplierHit (keyword context : List Char) : Bool :=
  keyword == "Supplier".data && !context.isEmpty

/-- One body of `search_pdf`'s occurrence loop after `get_context`:
record update under the `if context:` guard; the returned `Bool` is the
`break`. -/
def applyMatch (keyword context : List Char) (st : SearchState) : SearchState × Bool :=
  if context.isEmpty then (st, false)
  else
    (⟨assignField keyword context st.record,
      st.supplierFound || isSupplierHit keyword context⟩,
     isSupplierHit keyword context)

/-- The `while True` occurrence loop of `search_pdf` for one keyword,
starting the case-insensitive scan at `index`.  The source diverges on an
empty keyword (`find` then always succeeds in place); the configured
keywords are nonempty, so that case is cut off. -/
def occLoop (fullText keyword : List Char) (index : Nat) (st : SearchState) : SearchState :=
  if hk : keyword.length = 0 then st
  else
    match hf : pyFind (lowerL fullText) (lowerL keyword) index with
    | none => st
    | some i =>
      let res := applyMatch keyword (get_context (fullText.drop i) keyword) st
      if res.2 then res.1
      else occLoop fullText keyword (i + keyword.length) res.1
termination_by fullText.length + 1 - index
decreasing_by
  have hne : lowerL keyword ≠ [] := by
    simp only [lowerL, ne_eq, List.map_eq_nil_iff]
    intro hcon
    exact hk (by simp [hcon])
  obtain ⟨hb1, hb2⟩ := pyFind_bounds hne hf
  simp only [lowerL, List.length_map] at hb2
  omega

/-- One iteration of the keyword loop: skip `"Supplier"` once found,
otherwise scan all occurrences from index 0. -/
def kwStep (fullText : List Char) (st : SearchState) (keyword : List Char) : SearchState :=
  if keyword = "Supplier".data ∧ st.supplierFound then st
  else occLoop fullText keyword 0 st

/-- The whole keyword scan of `search_pdf` over an extracted text. -/
def searchText (pdf_path : String) (keywords : List (List Char)) (fullText : List Char) : Record :=
  (keywords.foldl (kwStep fullText) ⟨initRecord pdf_path, false⟩).record

/-- The configured keyword list of `main`. -/
def keywordsList : List (List Char) :=
  ["Invoice".data, "Date of invoice:".data, "Supplier".data,
   "Price of the services rendered:".data, "Currency:".data]

/-- `search_pdf` with the PDF collaborator abstracted: `readResult` is the
text extraction outcome (`Except.error e` when opening or extraction
raises, carrying `str(e)`).  Returns the record together with the
diagnostic printed by the `except` branch, if any. -/
def search_pdf (pdf_path : String) (keywords : List (List Char))
    (readResult : Except String (List Char)) : Record × Option String :=
  match readResult with
  | Except.ok fullText => (searchText pdf_path keywords fullText, none)
  | Except.error e => (initRecord pdf_path, some ("Error processing " ++ pdf_path ++ ": " ++ e))

/-- The per-document loop of `main`: one `search_pdf` call per discovered
file, in discovery order. -/
def processAll (keywords : List (List Char))
    (docs : List (String × Except String (List Char))) : List (Record × Option String) :=
  docs.map (fun d => search_pdf d.1 keywords d.2)

/-- Fuel-indexed version of `occLoop`, structurally recursive so that the
kernel can evaluate it on concrete documents.  `occLoop_eq_fuel` shows it
agrees with `occLoop` whenever the fuel covers the remaining text. -/
def occLoopF (fullText keyword : List Char) : Nat → Nat → SearchState → SearchState
  | 0, _, st => st
  | fuel + 1, index, st =>
    match pyFind (lowerL fullText) (lowerL keyword) index with
    | none => st
    | some i =>
      let res := applyMatch keyword (get_context (fullText.drop i) keyword) st
      if res.2 then res.1
      else occLoopF fullText keyword fuel (i + keyword.length) res.1

/-- Step lemma: `occLoop` stops when the keyword is no longer found. -/
lemma occLoop_none {fullText keyword : List Char} {index : Nat} (st : SearchState)
    (hk : ¬ keyword.length = 0)
    (hf : pyFind (lowerL fullText) (lowerL keyword) index = none) :
    occLoop fullText keyword index st = st := by
  rw [occLoop.eq_def, dif_neg hk]
  split
  · rfl
  · simp_all

/-- Step lemma: `occLoop` on a found occurrence runs one body and either
breaks or continues past the occurrence. -/
lemma occLoop_some {fullText keyword : List Char} {index i : Nat} (st : SearchState)
    (hk : ¬ keyword.length = 0)
    (hf : pyFind (lowerL fullText) (lowerL keyword) index = some i) :
    occLoop fullText keyword index st =
      (let res := applyMatch keyword (get_context (fullText.drop i) keyword) st
       if res.2 then res.1
       else occLoop fullText keyword (i + keyword.length) res.1) := by
  rw [occLoop.eq_def, dif_neg hk]
  split
  · simp_all
  · rename_i i' hf'
    rw [hf] at hf'
    cases hf'
    rfl

/-- With enough fuel the structural loop agrees with `occLoop`. -/
lemma occLoop_eq_fuel {fullText keyword : List Char} (fuel index : Nat) (st : SearchState)
    (hk : ¬ keyword.length = 0) (hfuel : fullText.length + 1 - index ≤ fuel) :
    occLoopF fullText keyword fuel index st = occLoop fullText keyword index st := by
  induction fuel generalizing index st with
  | zero =>
    have hne : lowerL keyword ≠ [] := by
      simp only [lowerL, ne_eq, List.map_eq_nil_iff]
      intro hcon
      exact hk (by simp [hcon])
    match hf : pyFind (lowerL fullText) (lowerL keyword) index with
    | none => rw [occLoop_none st hk hf]; rfl
    | some i =>
      exfalso
      obtain ⟨hb1, hb2⟩ := pyFind_bounds hne hf
      simp only [lowerL, List.length_map] at hb2
      omega
  | succ fuel ih =>
    match hf : pyFind (lowerL fullText) (lowerL keyword) index with
    | none =>
      rw [occLoop_none st hk hf]
      simp [occLoopF, hf]
    | some i =>
      rw [occLoop_some st hk hf]
      have hne : lowerL keyword ≠ [] := by
        simp only [lowerL, ne_eq, List.map_eq_nil_iff]
        intro hcon
        exact hk (by simp [hcon])
      obtain ⟨hb1, hb2⟩ := pyFind_bounds hne hf
      simp only [lowerL, List.length_map] at hb2
      simp only [occLoopF, hf]
      set res := applyMatch keyword (get_context (fullText.drop i) keyword) st with hres
      by_cases hbrk : res.2
      · simp [hbrk]
      · simp only [hbrk, if_false, Bool.false_eq_true]
        exact ih (i + keyword.length) res.1 (by omega)

/-- Kernel-computable version of `searchText` (same keyword fold, with the
fuelled loop). -/
def searchTextF (pdf_path : String) (keywords : List (List Char)) (fullText : List Char) : Record :=
  (keywords.foldl
    (fun st keyword =>
      if keyword = "Supplier".data ∧ st.supplierFound then st
      else occLoopF fullText keyword (fullText.length + 1) 0 st)
    ⟨initRecord pdf_path, false⟩).record

/-- On the configured keyword list the computable fold agrees with
`searchText`. -/
lemma searchText_eq_F (pdf_path : String) (fullText : List Char) :
    searchText pdf_path keywordsList fullText = searchTextF pdf_path keywordsList fullText := by
  have hstep : ∀ keyword, keyword ∈ keywordsList → ∀ st : SearchState,
      kwStep fullText st keyword =
        (if keyword = "Supplier".data ∧ st.supplierFound then st
         else occLoopF fullText keyword (fullText.length + 1) 0 st) := by
    intro keyword hmem st
    unfold kwStep
    by_cases hc : keyword = "Supplier".data ∧ st.supplierFound
    · simp [hc]
    · rw [if_neg hc, if_neg hc]
      refine (occLoop_eq_fuel _ 0 st ?_ (by omega)).symm
      fin_cases hmem <;> decide
  unfold searchText searchTextF
  rw [List.foldl_ext (kwStep fullText) _ _ (fun st keyword hmem => hstep keyword hmem st)]

/-- Spec-side description of the supplier policy (first-match-wins): scan
the case-insensitive occurrences of `"Supplier"` left to right and return
the first non-empty extraction, ignoring everything after it. -/
def supplierFirstHit (fullText : List Char) (index : Nat) : Option (List Char) :=
  match hf : pyFind (lowerL fullText) (lowerL ("Supplier".data)) index with
  | none => none
  | some i =>
    let c := get_context (fullText.drop i) ("Supplier".data)
    if c.isEmpty then supplierFirstHit fullText (i + ("Supplier".data).length)
    else some c
termination_by fullText.length + 1 - index
decreasing_by
  have hne : lowerL ("Supplier".data) ≠ [] := by decide
  obtain ⟨hb1, hb2⟩ := pyFind_bounds hne hf
  simp only [lowerL, List.length_map, List.length_cons, List.length_nil] at hb2 ⊢
  omega

/-- Step lemma for `supplierFirstHit` when the keyword is absent. -/
lemma supplierFirstHit_none {fullText : List Char} {index : Nat}
    (hf : pyFind (lowerL fullText) (lowerL ("Supplier".data)) index = none) :
    supplierFirstHit fullText index = none := by
  rw [supplierFirstHit.eq_def]
  split
  · rfl
  · simp_all

/-- Step lemma for `supplierFirstHit` on a found occurrence. -/
lemma supplierFirstHit_some {fullText : List Char} {index i : Nat}
    (hf : pyFind (lowerL fullText) (lowerL ("Supplier".data)) index = some i) :
    supplierFirstHit fullText index =
      (let c := get_context (fullText.drop i) ("Supplier".data)
       if c.isEmpty then supplierFirstHit fullText (i + ("Supplier".data).length)
       else some c) := by
  rw [supplierFirstHit.eq_def]
  split
  · simp_all
  · rename_i i' hf'
    rw [hf] at hf'
    cases hf'
    rfl

/-- Spec-side description of the policy for the other fields
(last-match-wins among non-empty extractions): the extraction of the last
scanned occurrence whose extraction is non-empty. -/
def lastContext (fullText keyword : List Char) (index : Nat) : Option (List Char) :=
  if hk : keyword.length = 0 then none
  else
    match hf : pyFind (lowerL fullText) (lowerL keyword) index with
    | none => none
    | some i =>
      let c := get_context (fullText.drop i) keyword
      match lastContext fullText keyword (i + keyword.length) with
      | some v => some v
      | none => if c.isEmpty then none else some c
termination_by fullText.length + 1 - index
decreasing_by
  have hne : lowerL keyword ≠ [] := by
    simp only [lowerL, ne_eq, List.map_eq_nil_iff]
    intro hcon
    exact hk (by simp [hcon])
  obtain ⟨hb1, hb2⟩ := pyFind_bounds hne hf
  simp only [lowerL, List.length_map] at hb2
  omega

/-- Step lemma for `lastContext` when the keyword is absent. -/
lemma lastContext_none {fullText keyword : List Char} {index : Nat}
    (hk : ¬ keyword.length = 0)
    (hf : pyFind (lowerL fullText) (lowerL keyword) index = none) :
    lastContext fullText keyword index = none := by
  rw [lastContext.eq_def, dif_neg hk]
  split
  · rfl
  · simp_all

/-- Step lemma for `lastContext` on a found occurrence. -/
lemma lastContext_some {fullText keyword : List Char} {index i : Nat}
    (hk : ¬ keyword.length = 0)
    (hf : pyFind (lowerL fullText) (lowerL keyword) index = some i) :
    lastContext fullText keyword index =
      (let c := get_context (fullText.drop i) keyword
       match lastContext fullText keyword (i + keyword.length) with
       | some v => some v
       | none => if c.isEmpty then none else some c) := by
  rw [lastContext.eq_def, dif_neg hk]
  split
  · simp_all
  · rename_i i' hf'
    rw [hf] at hf'
    cases hf'
    rfl

/-- Writing the same keyword's slot twice keeps only the second value. -/
lemma assignField_absorb (keyword v c : List Char) (r : Record) :
    assignField keyword v (assignField keyword c r) = assignField keyword v r := by
  unfold assignField
  split_ifs <;> rfl

lemma assignField_supplier (c : List Char) (r : Record) :
    assignField ("Supplier".data) c r = { r with supplier := c } := by
  unfold assignField
  rw [if_neg (by decide), if_neg (by decide), if_pos rfl]

lemma occLoop_supplier_eq (fullText : List Char) :
    ∀ (index : Nat) (st : SearchState), st.supplierFound = false →
      occLoop fullText ("Supplier".data) index st =
        (match supplierFirstHit fullText index with
         | some v => (⟨{ st.record with supplier := v }, true⟩ : SearchState)
         | none => st) := by
  refine occLoop.induct fullText ("Supplier".data)
    (fun index st => st.supplierFound = false →
      occLoop fullText ("Supplier".data) index st =
        (match supplierFirstHit fullText index with
         | some v => (⟨{ st.record with supplier := v }, true⟩ : SearchState)
         | none => st)) ?_ ?_ ?_ ?_
  · intro index st h
    exact absurd h (by decide)
  · intro index st hk hf hsf
    rw [occLoop_none st hk hf, supplierFirstHit_none hf]
  · intro index st hk i hf res hbrk hsf
    have hres : res = applyMatch ("Supplier".data) (get_context (fullText.drop i) ("Supplier".data)) st := rfl
    rw [hres] at hbrk
    rw [occLoop_some st hk hf]
    by_cases hc : (get_context (fullText.drop i) ("Supplier".data)).isEmpty
    · exfalso
      simp [applyMatch, hc] at hbrk
    · rw [if_pos hbrk, supplierFirstHit_some hf]
      simp only [hc, if_false]
      simp [applyMatch, hc, isSupplierHit, hsf]
      unfold assignField
      rw [if_neg (by decide), if_neg (by decide), if_pos (by decide)]
  · intro index st hk i hf res hbrk ih hsf
    have hres : res = applyMatch ("Supplier".data) (get_context (fullText.drop i) ("Supplier".data)) st := rfl
    rw [hres] at hbrk ih
    rw [occLoop_some st hk hf]
    by_cases hc : (get_context (fullText.drop i) ("Supplier".data)).isEmpty
    · have happ : applyMatch ("Supplier".data) (get_context (fullText.drop i) ("Supplier".data)) st = (st, false) := by
        simp [applyMatch, hc]
      rw [happ] at ih ⊢
      rw [supplierFirstHit_some hf]
      simp only [hc, if_true]
      exact ih hsf
    · exfalso
      simp [applyMatch, hc, isSupplierHit] at hbrk

lemma occLoop_last_match {keyword : List Char} (hsup : keyword ≠ "Supplier".data)
    (hk0 : ¬ keyword.length = 0) (fullText : List Char) :
    ∀ (index : Nat) (st : SearchState),
      occLoop fullText keyword index st =
        ⟨(match lastContext fullText keyword index with
           | some v => assignField keyword v st.record
           | none => st.record), st.supplierFound⟩ := by
  refine occLoop.induct fullText keyword
    (fun index st =>
      occLoop fullText keyword index st =
        ⟨(match lastContext fullText keyword index with
           | some v => assignField keyword v st.record
           | none => st.record), st.supplierFound⟩) ?_ ?_ ?_ ?_
  · intro index st h
    exact absurd h hk0
  · intro index st hk hf
    rw [occLoop_none st hk hf, lastContext_none hk hf]
  · intro index st hk i hf res hbrk
    exfalso
    have hres : res = applyMatch keyword (get_context (fullText.drop i) keyword) st := rfl
    rw [hres] at hbrk
    by_cases hc : (get_context (fullText.drop i) keyword).isEmpty
    · simp [applyMatch, hc] at hbrk
    · simp [applyMatch, hc, isSupplierHit, hsup] at hbrk
  · intro index st hk i hf res hbrk ih
    have hres : res = applyMatch keyword (get_context (fullText.drop i) keyword) st := rfl
    rw [hres] at ih
    rw [occLoop_some st hk hf, lastContext_some hk hf]
    by_cases hc : (get_context (fullText.drop i) keyword).isEmpty
    · have happ : applyMatch keyword (get_context (fullText.drop i) keyword) st = (st, false) := by
        simp [applyMatch, hc]
      rw [happ] at ih ⊢
      simp only [hc, if_true]
      cases hlast : lastContext fullText keyword (i + keyword.length) with
      | none =>
        rw [hlast] at ih
        simpa using ih
      | some v =>
        rw [hlast] at ih
        simpa using ih
    · have happ : applyMatch keyword (get_context (fullText.drop i) keyword) st =
          (⟨assignField keyword (get_context (fullText.drop i) keyword) st.record, st.supplierFound⟩, false) := by
        simp [applyMatch, hc, isSupplierHit, hsup]
      rw [happ] at ih ⊢
      simp only [hc, if_false]
      cases hlast : lastContext fullText keyword (i + keyword.length) with
      | none =>
        rw [hlast] at ih
        simpa using ih
      | some v =>
        rw [hlast] at ih
        simp only [assignField_absorb] at ih
        simpa [assignField_absorb] using ih

/-- `assignField` never touches the file path. -/
lemma assignField_file_path (keyword c : List Char) (r : Record) :
    (assignField keyword c r).file_path = r.file_path := by
  unfold assignField
  split_ifs <;> rfl

/-- Any record projection untouched by `assignField` for a keyword is
invariant under the whole occurrence loop of that keyword. -/
lemma occLoop_proj {β : Type} (proj : Record → β) (fullText keyword : List Char)
    (hpres : ∀ c r, proj (assignField keyword c r) = proj r) :
    ∀ (index : Nat) (st : SearchState),
      proj (occLoop fullText keyword index st).record = proj st.record := by
  refine occLoop.induct fullText keyword
    (fun index st => proj (occLoop fullText keyword index st).record = proj st.record)
    ?_ ?_ ?_ ?_
  · intro index st h
    rw [occLoop.eq_def, dif_pos h]
  · intro index st hk hf
    rw [occLoop_none st hk hf]
  · intro index st hk i hf res hbrk
    have hres : res = applyMatch keyword (get_context (fullText.drop i) keyword) st := rfl
    rw [occLoop_some st hk hf, if_pos hbrk]
    by_cases hc : (get_context (fullText.drop i) keyword).isEmpty
    · simp [applyMatch, hc]
    · simp [applyMatch, hc, hpres]
  · intro index st hk i hf res hbrk ih
    have hres : res = applyMatch keyword (get_context (fullText.drop i) keyword) st := rfl
    rw [occLoop_some st hk hf, if_neg hbrk]
    rw [hres] at ih
    rw [ih]
    by_cases hc : (get_context (fullText.drop i) keyword).isEmpty
    · simp [applyMatch, hc]
    · simp [applyMatch, hc, hpres]

/-- Lift of `occLoop_proj` to the keyword fold of `searchText`. -/
lemma foldl_kwStep_proj {β : Type} (proj : Record → β) (fullText : List Char)
    (ks : List (List Char))
    (hpres : ∀ keyword ∈ ks, ∀ c r, proj (assignField keyword c r) = proj r) :
    ∀ st : SearchState,
      proj ((ks.foldl (kwStep fullText) st).record) = proj st.record := by
  induction ks with
  | nil => intro st; rfl
  | cons k rest ih =>
    intro st
    simp only [List.foldl_cons]
    rw [ih (fun keyword hm => hpres keyword (List.mem_cons_of_mem k hm))]
    unfold kwStep
    split_ifs
    · rfl
    · exact occLoop_proj proj fullText k (hpres k (List.mem_cons_self k rest)) 0 st

/-- The file path put into the record at initialization survives the scan. -/
lemma searchText_file_path (pdf_path : String) (ks : List (List Char)) (fullText : List Char) :
    (searchText pdf_path ks fullText).file_path = pdf_path := by
  unfold searchText
  exact foldl_kwStep_proj Record.file_path fullText ks
    (fun keyword _ c r => assignField_file_path keyword c r) _

/-- C1: supplier is first-match-wins.  For every document text and start
index, the `"Supplier"` occurrence loop (entered with the flag unset)
returns the extraction of the first scanned occurrence producing a
non-empty value, writes exactly that value, sets the flag and stops; and
on the spec's two-supplier scenario the record's supplier field is
`"Alpha Corp"`. -/
theorem C1_supplier_first_match_wins :
    (∀ (fullText : List Char) (index : Nat) (st : SearchState), st.supplierFound = false →
      occLoop fullText ("Supplier".data) index st =
        (match supplierFirstHit fullText index with
         | some v => (⟨{ st.record with supplier := v }, true⟩ : SearchState)
         | none => st)) ∧
    (searchText "doc.pdf" keywordsList
        ("Supplier Alpha Corp, supplies things. Supplier Beta Corp, other.".data)).supplier =
      "Alpha Corp".data := by
  constructor
  · exact fun fullText => occLoop_supplier_eq fullText
  · rw [searchText_eq_F]
    decide

/-- Witness for C1 at a concrete document. -/
theorem C1_witness :
    occLoop ("Supplier Acme, x".data) ("Supplier".data) 0 ⟨initRecord "w.pdf", false⟩ =
      ⟨{ initRecord "w.pdf" with supplier := "Acme".data }, true⟩ := by
  have h := C1_supplier_first_match_wins.1 ("Supplier Acme, x".data) 0 ⟨initRecord "w.pdf", false⟩ rfl
  rw [h, supplierFirstHit_some (show pyFind (lowerL ("Supplier Acme, x".data))
    (lowerL ("Supplier".data)) 0 = some 0 by decide)]
  decide

/-- C2 counterexample: the code guards each write with `if context:`, so a
later occurrence whose extraction is empty does not overwrite.  In this
document the second (last) `"Price of the services rendered:"` occurrence
is at index 37, its extraction is empty, there is no further occurrence,
and yet the record's price field keeps the first occurrence's `"10"`. -/
theorem C2_counterexample :
    (searchText "doc.pdf" keywordsList
        ("Price of the services rendered: 10 x Price of the services rendered: none".data)).price_of_the_services_rendered =
      "10".data ∧
    pyFind (lowerL ("Price of the services rendered: 10 x Price of the services rendered: none".data))
      (lowerL ("Price of the services rendered:".data)) 31 = some 37 ∧
    pyFind (lowerL ("Price of the services rendered: 10 x Price of the services rendered: none".data))
      (lowerL ("Price of the services rendered:".data)) 68 = none ∧
    get_context (("Price of the services rendered: 10 x Price of the services rendered: none".data).drop 37)
      ("Price of the services rendered:".data) = [] := by
  refine ⟨?_, by decide, by decide, by decide⟩
  rw [searchText_eq_F]
  decide

/-- C2 (amended): for the invoice, date, price and currency keywords the
occurrence loop scans every occurrence in order and each occurrence with a
non-empty extraction overwrites the slot, so the field ends as the
extraction of the last occurrence whose extraction is non-empty (the slot
is untouched when every extraction is empty). -/
theorem C2_last_match_wins :
    ∀ keyword, keyword ∈ [("Invoice".data), ("Date of invoice:".data),
        ("Price of the services rendered:".data), ("Currency:".data)] →
      ∀ (fullText : List Char) (index : Nat) (st : SearchState),
        occLoop fullText keyword index st =
          ⟨(match lastContext fullText keyword index with
             | some v => assignField keyword v st.record
             | none => st.record), st.supplierFound⟩ := by
  intro keyword hmem fullText index st
  have hsup : keyword ≠ "Supplier".data := by fin_cases hmem <;> decide
  have hk0 : ¬ keyword.length = 0 := by fin_cases hmem <;> decide
  exact occLoop_last_match hsup hk0 fullText index st

/-- Witness for the amended C2 at a concrete document and keyword. -/
theorem C2_witness :
    occLoop ("Currency: USD y Currency: EUR".data) ("Currency:".data) 0 ⟨initRecord "w.pdf", false⟩ =
      ⟨(match lastContext ("Currency: USD y Currency: EUR".data) ("Currency:".data) 0 with
         | some v => assignField ("Currency:".data) v (initRecord "w.pdf")
         | none => initRecord "w.pdf"), false⟩ :=
  C2_last_match_wins ("Currency:".data) (by decide) ("Currency: USD y Currency: EUR".data) 0
    ⟨initRecord "w.pdf", false⟩

/-- C4: a document whose opening or text extraction fails is caught: the
pipeline emits a diagnostic naming the document, still yields a record
with the correct path and all five fields empty, and the batch loop
yields exactly one record per document, in order, whatever each
document's outcome. -/
theorem C4_failure_yields_empty_record :
    (∀ (path e : String),
      search_pdf path keywordsList (Except.error e) =
        (initRecord path, some ("Error processing " ++ path ++ ": " ++ e)) ∧
      (initRecord path).file_path = path ∧
      (initRecord path).date_of_invoice = [] ∧ (initRecord path).supplier = [] ∧
      (initRecord path).invoice = [] ∧ (initRecord path).currency = [] ∧
      (initRecord path).price_of_the_services_rendered = []) ∧
    (∀ docs : List (String × Except String (List Char)),
      (processAll keywordsList docs).map (fun pr => pr.1.file_path) = docs.map Prod.fst) := by
  constructor
  · intro path e
    exact ⟨rfl, rfl, rfl, rfl, rfl, rfl, rfl⟩
  · intro docs
    unfold processAll
    rw [List.map_map]
    refine List.map_congr_left ?_
    intro d hd
    match d with
    | (path, Except.ok t) =>
      simp [search_pdf, Function.comp, searchText_file_path]
    | (path, Except.error e) =>
      simp [search_pdf, Function.comp, initRecord]

/-- C5: the normalizer's output has no code point in the removed Cyrillic
ranges, is a sublist of the input (original relative order, nothing
substituted), and keeps every occurrence of every character outside the
ranges. -/
theorem C5_normalizer :
    ∀ s : List Char,
      (∀ c ∈ cleanCyrillic s, isCyrChar c = false) ∧
      (cleanCyrillic s).Sublist s ∧
      (∀ c : Char, isCyrChar c = false → (cleanCyrillic s).count c = s.count c) := by
  intro s
  refine ⟨?_, List.filter_sublist s, ?_⟩
  · intro c hc
    have hf := List.of_mem_filter hc
    simpa using hf
  · intro c hcyr
    unfold cleanCyrillic
    rw [List.count_filter (by simp [hcyr])]

/-- Witness for C5 on a mixed Latin/Cyrillic string. -/
theorem C5_witness :
    isCyrChar 'a' = false ∧
    (cleanCyrillic ("aФb".data)).count 'a' = ("aФb".data).count 'a' ∧
    (cleanCyrillic ("aФb".data)).Sublist ("aФb".data) :=
  ⟨by decide, (C5_normalizer ("aФb".data)).2.2 'a' (by decide), (C5_normalizer ("aФb".data)).2.1⟩

/-- Numeric bounds behind a `\d` match. -/
lemma isPyDigit_toNat {c : Char} (h : isPyDigit c = true) : 48 ≤ c.toNat ∧ c.toNat ≤ 57 := by
  simpa [isPyDigit] using h

/-- Numeric bounds behind an `isPySpace` match. -/
lemma isPySpace_toNat {c : Char} (h : isPySpace c = true) :
    (9 ≤ c.toNat ∧ c.toNat ≤ 13) ∨ (28 ≤ c.toNat ∧ c.toNat ≤ 32) ∨ c.toNat = 133 ∨
      c.toNat = 160 ∨ c.toNat = 5760 ∨ (8192 ≤ c.toNat ∧ c.toNat ≤ 8202) ∨ c.toNat = 8232 ∨
      c.toNat = 8233 ∨ c.toNat = 8239 ∨ c.toNat = 8287 ∨ c.toNat = 12288 := by
  have hs := h
  simp only [isPySpace, Bool.or_eq_true, Bool.and_eq_true, decide_eq_true_eq, beq_iff_eq] at hs
  tauto

/-- Numeric bounds behind an `isCyrChar` match. -/
lemma isCyrChar_toNat {c : Char} (h : isCyrChar c = true) :
    (1024 ≤ c.toNat ∧ c.toNat ≤ 1279) ∨ (1280 ≤ c.toNat ∧ c.toNat ≤ 1327) := by
  simpa [isCyrChar] using h

/-- Numeric bounds behind a `\w` match. -/
lemma isPyWord_toNat {c : Char} (h : isPyWord c = true) :
    (65 ≤ c.toNat ∧ c.toNat ≤ 90) ∨ (97 ≤ c.toNat ∧ c.toNat ≤ 122) ∨
      (48 ≤ c.toNat ∧ c.toNat ≤ 57) ∨ c.toNat = 95 ∨
      (1024 ≤ c.toNat ∧ c.toNat ≤ 1279) ∨ (1280 ≤ c.toNat ∧ c.toNat ≤ 1327) := by
  simp only [isPyWord, isCyrChar, Bool.or_eq_true, Bool.and_eq_true, decide_eq_true_eq,
    beq_iff_eq] at h
  tauto

/-- A digit is not regex whitespace. -/
lemma isPyDigit_not_space {c : Char} (h : isPyDigit c = true) : isPySpace c = false := by
  obtain ⟨h1, h2⟩ := isPyDigit_toNat h
  cases hsp : isPySpace c with
  | false => rfl
  | true => exact absurd (isPySpace_toNat hsp) (by omega)

/-- A digit is not a removed Cyrillic character. -/
lemma isPyDigit_not_cyr {c : Char} (h : isPyDigit c = true) : isCyrChar c = false := by
  obtain ⟨h1, h2⟩ := isPyDigit_toNat h
  cases hcy : isCyrChar c with
  | false => rfl
  | true => exact absurd (isCyrChar_toNat hcy) (by omega)

/-- Regex whitespace is not a removed Cyrillic character. -/
lemma isPySpace_not_cyr {c : Char} (h : isPySpace c = true) : isCyrChar c = false := by
  have hs := isPySpace_toNat h
  cases hcy : isCyrChar c with
  | false => rfl
  | true => exact absurd (isCyrChar_toNat hcy) (by omega)

/-- A `\w` character is not regex whitespace. -/
lemma isPyWord_not_space {c : Char} (h : isPyWord c = true) : isPySpace c = false := by
  have hw := isPyWord_toNat h
  cases hsp : isPySpace c with
  | false => rfl
  | true => exact absurd (isPySpace_toNat hsp) (by omega)

/-- Inversion for `reSearch`: every successful search happened at some
suffix of the scanned string. -/
lemma reSearch_some {f : List Char → Option (List Char)} {s r : List Char}
    (h : reSearch f s = some r) : ∃ j, f (s.drop j) = some r := by
  induction s with
  | nil => exact ⟨0, h⟩
  | cons c rest ih =>
    rw [show reSearch f (c :: rest) =
        (match f (c :: rest) with | some r => some r | none => reSearch f rest) from rfl] at h
    cases hf : f (c :: rest) with
    | some r' =>
      rw [hf] at h
      simp only [Option.some.injEq] at h
      exact ⟨0, by rw [List.drop_zero, hf, h]⟩
    | none =>
      rw [hf] at h
      obtain ⟨j, hj⟩ := ih h
      exact ⟨j + 1, hj⟩

/-- Inversion for `lazyScan`: a successful lazy scan happened at some
suffix. -/
lemma lazyScan_some {f : List Char → Option (List Char)} {s r : List Char}
    (h : lazyScan f s = some r) : ∃ j, f (s.drop j) = some r := by
  induction s with
  | nil => exact ⟨0, h⟩
  | cons c rest ih =>
    rw [show lazyScan f (c :: rest) =
        (match f (c :: rest) with
         | some r => some r
         | none => if c == '\n' then none else lazyScan f rest) from rfl] at h
    cases hf : f (c :: rest) with
    | some r' =>
      rw [hf] at h
      simp only [Option.some.injEq] at h
      exact ⟨0, by rw [List.drop_zero, hf, h]⟩
    | none =>
      rw [hf] at h
      by_cases hnl : c = '\n'
      · simp [hnl] at h
      · rw [if_neg (by simpa using hnl)] at h
        obtain ⟨j, hj⟩ := ih h
        exact ⟨j + 1, hj⟩

/-- Inversion for a literal-prefixed matcher. -/
lemma stripLit_bind_some {lit s r : List Char} {k : List Char → Option (List Char)}
    (h : (stripLit lit s >>= k) = some r) :
    lit.isPrefixOf s = true ∧ k (s.drop lit.length) = some r := by
  unfold stripLit at h
  by_cases hp : lit.isPrefixOf s
  · rw [if_pos hp] at h
    exact ⟨hp, by simpa using h⟩
  · rw [if_neg hp] at h
    simp at h

/-- `takeWhile` passes over a block that satisfies the predicate. -/
lemma takeWhile_append_all {p : Char → Bool} {a b : List Char} (h : ∀ c ∈ a, p c = true) :
    (a ++ b).takeWhile p = a ++ b.takeWhile p := by
  induction a with
  | nil => simp
  | cons x xs ih =>
    rw [List.cons_append, List.takeWhile_cons, if_pos (h x (List.mem_cons_self x xs)),
      ih (fun c hc => h c (List.mem_cons_of_mem x hc)), List.cons_append]

/-- `dropWhile` consumes a block that satisfies the predicate. -/
lemma dropWhile_append_all {p : Char → Bool} {a b : List Char} (h : ∀ c ∈ a, p c = true) :
    (a ++ b).dropWhile p = b.dropWhile p := by
  induction a with
  | nil => simp
  | cons x xs ih =>
    rw [List.cons_append, List.dropWhile_cons, if_pos (h x (List.mem_cons_self x xs)),
      ih (fun c hc => h c (List.mem_cons_of_mem x hc))]

/-- `takeWhile` stops at a head that fails the predicate. -/
lemma takeWhile_head_not {p : Char → Bool} {b : List Char} (h : ∀ c ∈ b.head?, p c = false) :
    b.takeWhile p = [] := by
  cases b with
  | nil => rfl
  | cons x xs => rw [List.takeWhile_cons, if_neg (by simp [h x rfl])]

/-- `dropWhile` keeps everything from a head that fails the predicate. -/
lemma dropWhile_head_not {p : Char → Bool} {b : List Char} (h : ∀ c ∈ b.head?, p c = false) :
    b.dropWhile p = b := by
  cases b with
  | nil => rfl
  | cons x xs => rw [List.dropWhile_cons, if_neg (by simp [h x rfl])]

/-- The head surviving a `dropWhile` fails the predicate. -/
lemma dropWhile_head_fails (p : Char → Bool) (l : List Char) :
    ∀ c ∈ (l.dropWhile p).head?, p c = false := by
  induction l with
  | nil => intro c hc; cases hc
  | cons x xs ih =>
    intro c hc
    rw [List.dropWhile_cons] at hc
    by_cases hp : p x
    · rw [if_pos hp] at hc
      exact ih c hc
    · rw [if_neg hp] at hc
      cases hc
      simpa using hp

/-- A nonempty prefix starts with the same head. -/
lemma isPre_head {l₁ l₂ : List Char} (h : l₁ <+: l₂) (hne : l₁ ≠ []) :
    l₂.head? = l₁.head? := by
  obtain ⟨t, rfl⟩ := h
  rw [List.head?_append]
  cases l₁ with
  | nil => exact absurd rfl hne
  | cons x xs => rfl

/-- `stripTrailing` is a prefix of its argument. -/
lemma stripTrailing_pre (l : List Char) : stripTrailing l <+: l := by
  refine List.reverse_suffix.mp ?_
  rw [stripTrailing, List.reverse_reverse]
  exact List.dropWhile_suffix _

/-- `pyStrip` is a contiguous slice of its argument. -/
lemma pyStrip_contig (l : List Char) : pyStrip l <:+: l :=
  List.infix_iff_prefix_suffix.mpr
    ⟨l.dropWhile isPySpace, stripTrailing_pre _, List.dropWhile_suffix _⟩

/-- `stripTrailing` keeps a list whose last element is not whitespace. -/
lemma stripTrailing_eq_self {l : List Char} (h : ∀ c ∈ l.getLast?, isPySpace c = false) :
    stripTrailing l = l := by
  rw [stripTrailing, dropWhile_head_not (by rw [List.head?_reverse]; exact h),
    List.reverse_reverse]

/-- `pyStrip` keeps a list with no whitespace at either end. -/
lemma pyStrip_eq_self {l : List Char} (h1 : ∀ c ∈ l.head?, isPySpace c = false)
    (h2 : ∀ c ∈ l.getLast?, isPySpace c = false) : pyStrip l = l := by
  rw [pyStrip, dropWhile_head_not h1, stripTrailing_eq_self h2]

/-- `pyStrip` of a list with no whitespace at all is the identity. -/
lemma pyStrip_eq_self_of_all {l : List Char} (h : ∀ c ∈ l, isPySpace c = false) :
    pyStrip l = l :=
  pyStrip_eq_self (fun c hc => h c (List.mem_of_mem_head? hc))
    (fun c hc => h c (List.mem_of_mem_getLast? hc))

/-- The last element kept by `stripTrailing` is not whitespace. -/
lemma stripTrailing_getLast_fails (l : List Char) :
    ∀ c ∈ (stripTrailing l).getLast?, isPySpace c = false := by
  intro c hc
  rw [stripTrailing, List.getLast?_reverse] at hc
  exact dropWhile_head_fails isPySpace l.reverse c hc

/-- The head kept by `pyStrip` is not whitespace. -/
lemma pyStrip_head_fails (l : List Char) :
    ∀ c ∈ (pyStrip l).head?, isPySpace c = false := by
  intro c hc
  by_cases hne : pyStrip l = []
  · rw [hne] at hc; cases hc
  · rw [pyStrip] at hc hne
    rw [← isPre_head (stripTrailing_pre _) hne] at hc
    exact dropWhile_head_fails isPySpace l c hc

/-- The last element kept by `pyStrip` is not whitespace. -/
lemma pyStrip_getLast_fails (l : List Char) :
    ∀ c ∈ (pyStrip l).getLast?, isPySpace c = false :=
  stripTrailing_getLast_fails _

/-- Python's `strip` is idempotent. -/
lemma pyStrip_idem (l : List Char) : pyStrip (pyStrip l) = pyStrip l :=
  pyStrip_eq_self (pyStrip_head_fails l) (pyStrip_getLast_fails l)

/-- A successful date-shape probe returns a string of the date shape. -/
lemma dateShapeAt_shape {t g : List Char} (h : dateShapeAt t = some g) : isDateShape g = true := by
  unfold dateShapeAt at h
  by_cases hs : isDateShape (t.take 10)
  · rw [if_pos hs] at h
    cases h
    exact hs
  · rw [if_neg hs] at h
    cases h

/-- The shape `\d+(\.\d*)?` produced by the price capture (a trailing dot
with no fractional digits is allowed). -/
def isLaxPriceShape (l : List Char) : Bool :=
  !(l.takeWhile isPyDigit).isEmpty &&
    ((l.dropWhile isPyDigit).isEmpty ||
      ((l.dropWhile isPyDigit).head? == some '.' && (l.dropWhile isPyDigit).tail.all isPyDigit))

/-- The shape `\d+(\.\d+)?` the claim asserts (a dot must be followed by
at least one digit). -/
def isStrictPriceShape (l : List Char) : Bool :=
  !(l.takeWhile isPyDigit).isEmpty &&
    ((l.dropWhile isPyDigit).isEmpty ||
      ((l.dropWhile isPyDigit).head? == some '.' && !(l.dropWhile isPyDigit).tail.isEmpty &&
        (l.dropWhile isPyDigit).tail.all isPyDigit))

/-- A successful price capture has the lax decimal shape and contains no
whitespace. -/
lemma priceTail_shape {t g : List Char} (h : priceTail t = some g) :
    isLaxPriceShape g = true ∧ ∀ c ∈ g, isPySpace c = false := by
  unfold priceTail at h
  by_cases hd : ((t.dropWhile isPySpace).takeWhile isPyDigit).isEmpty
  · rw [if_pos hd] at h
    cases h
  · rw [if_neg hd] at h
    have hall : ∀ c ∈ (t.dropWhile isPySpace).takeWhile isPyDigit, isPyDigit c = true :=
      fun c hc => List.mem_takeWhile_imp hc
    have hne : ¬ ((t.dropWhile isPySpace).takeWhile isPyDigit) = [] := by
      simpa [List.isEmpty_iff] using hd
    split at h
    · rename_i r2 heq
      have hg : g = (t.dropWhile isPySpace).takeWhile isPyDigit ++ '.' :: r2.takeWhile isPyDigit := by
        cases h
        rfl
      subst hg
      have hds : ∀ c ∈ r2.takeWhile isPyDigit, isPyDigit c = true :=
        fun c hc => List.mem_takeWhile_imp hc
      constructor
      · unfold isLaxPriceShape
        rw [takeWhile_append_all hall, dropWhile_append_all hall,
          takeWhile_head_not (p := isPyDigit) (b := '.' :: r2.takeWhile isPyDigit)
            (by intro c hc; cases hc; decide),
          dropWhile_head_not (p := isPyDigit) (b := '.' :: r2.takeWhile isPyDigit)
            (by intro c hc; cases hc; decide)]
        simp [hne, List.all_eq_true, hds]
      · intro c hc
        rcases List.mem_append.mp hc with hc1 | hc2
        · exact isPyDigit_not_space (hall c hc1)
        · rcases List.mem_cons.mp hc2 with rfl | hc3
          · decide
          · exact isPyDigit_not_space (hds c hc3)
    · have hg : g = (t.dropWhile isPySpace).takeWhile isPyDigit := by
        cases h
        rfl
      subst hg
      constructor
      · unfold isLaxPriceShape
        rw [List.takeWhile_eq_self_iff.mpr hall, List.dropWhile_eq_nil_iff.mpr hall]
        simp [hne]
      · exact fun c hc => isPyDigit_not_space (hall c hc)

/-- C6: the date extractor returns only a string of the exact
`dd.MM.yyyy` shape; it accepts the spec's well-formed example and rejects
single-digit day and month components. -/
theorem C6_date_extractor :
    (∀ s : List Char, extract_invoice_date s = [] ∨ isDateShape (extract_invoice_date s) = true) ∧
    extract_invoice_date ("Date of invoice issued on 05.09.2023 for services".data) = "05.09.2023".data ∧
    extract_invoice_date ("Date of invoice: 5.9.2023".data) = [] := by
  refine ⟨?_, by decide, by decide⟩
  intro s
  unfold extract_invoice_date
  cases hr : reSearch (fun t => stripLit ("Date of invoice".data) t >>= lazyScan dateShapeAt) s with
  | none => exact Or.inl rfl
  | some g =>
    right
    obtain ⟨j, hj⟩ := reSearch_some hr
    obtain ⟨-, hk⟩ := stripLit_bind_some hj
    obtain ⟨j2, hj2⟩ := lazyScan_some hk
    exact dateShapeAt_shape hj2

/-- C7 counterexample: on a price with a bare trailing dot the source
regex `\d+\.?\d*` captures and returns `"1500."`, which does not have the
claimed never-a-bare-trailing-dot shape. -/
theorem C7_counterexample :
    extract_price ("Price of the services rendered: 1500. USD".data) = "1500.".data ∧
    isStrictPriceShape ("1500.".data) = false ∧
    isStrictPriceShape ("1500.50".data) = true := by
  refine ⟨by decide, by decide, by decide⟩

/-- C7 (amended): the price extractor returns the empty string or a
number of shape `\d+(\.\d*)?` — one or more digits, optionally followed
by a dot and zero or more digits, so a bare trailing dot can occur; on
the spec's example it returns `"1500.50"`. -/
theorem C7_price_shape :
    (∀ s : List Char, extract_price s = [] ∨ isLaxPriceShape (extract_price s) = true) ∧
    extract_price ("Price of the services rendered: 1500.50 USD".data) = "1500.50".data := by
  refine ⟨?_, by decide⟩
  intro s
  unfold extract_price
  cases hr : reSearch (fun t => stripLit ("Price of the services rendered:".data) t >>= priceTail) s with
  | none => exact Or.inl rfl
  | some g =>
    right
    obtain ⟨j, hj⟩ := reSearch_some hr
    obtain ⟨-, hk⟩ := stripLit_bind_some hj
    obtain ⟨hshape, hnospace⟩ := priceTail_shape hk
    show isLaxPriceShape (pyStrip g) = true
    rw [pyStrip_eq_self_of_all hnospace]
    exact hshape

/-- A successful `pyFind` points at an occurrence. -/
lemma pyFind_occurrence {hay nee : List Char} {start i : Nat}
    (h : pyFind hay nee start = some i) : nee.isPrefixOf (hay.drop i) = true := by
  unfold pyFind at h
  cases hp : firstOcc nee (hay.drop start) with
  | none => rw [hp] at h; cases h
  | some p =>
    rw [hp] at h
    have hps : p + start = i := by simpa using h
    subst hps
    have h1 := (firstOcc_some hp).1
    rw [List.drop_drop] at h1
    rwa [Nat.add_comm] at h1

/-- A successful `pyFind` points at the least occurrence at or after
`start`. -/
lemma pyFind_min {hay nee : List Char} {start i : Nat}
    (h : pyFind hay nee start = some i) :
    ∀ j, start ≤ j → j < i → nee.isPrefixOf (hay.drop j) = false := by
  unfold pyFind at h
  cases hp : firstOcc nee (hay.drop start) with
  | none => rw [hp] at h; cases h
  | some p =>
    rw [hp] at h
    have hps : p + start = i := by simpa using h
    subst hps
    intro j hj1 hj2
    have h2 := (firstOcc_some hp).2 (j - start) (by omega)
    rw [List.drop_drop] at h2
    have hjj : start + (j - start) = j := by omega
    rwa [hjj] at h2

/-- C8: whenever `get_context` builds a window, the string handed to the
extractor is the 200-character slice of the document text starting at a
(case-insensitive) keyword occurrence, newline-replaced and stripped; it
is at most 200 characters long and contains no newline. -/
theorem C8_context_window :
    ∀ (text keyword w : List Char), contextWindow text keyword = some w →
      w.length ≤ 200 ∧ (∀ c ∈ w, c ≠ '\n') ∧
      ∃ p, (lowerL keyword).isPrefixOf ((lowerL text).drop p) = true ∧
        w = pyStrip (replaceNl ((text.drop p).take 200)) := by
  intro text keyword w h
  unfold contextWindow at h
  cases hf : pyFind (lowerL text) (lowerL keyword) 0 with
  | none => rw [hf] at h; cases h
  | some p =>
    rw [hf] at h
    have hw : w = pyStrip (replaceNl ((text.drop p).take 200)) := by
      cases h
      rfl
    subst hw
    refine ⟨?_, ?_, p, pyFind_occurrence hf, rfl⟩
    · have h1 : (pyStrip (replaceNl ((text.drop p).take 200))).length ≤
          (replaceNl ((text.drop p).take 200)).length :=
        (pyStrip_contig _).length_le
      have h2 : (replaceNl ((text.drop p).take 200)).length = ((text.drop p).take 200).length := by
        simp [replaceNl]
      have h3 : ((text.drop p).take 200).length ≤ 200 := by
        rw [List.length_take]
        omega
      omega
    · intro c hc
      have hc2 : c ∈ replaceNl ((text.drop p).take 200) := (pyStrip_contig _).subset hc
      unfold replaceNl at hc2
      obtain ⟨a, ha, hfa⟩ := List.mem_map.mp hc2
      intro hcon
      subst hcon
      by_cases haa : a = '\n'
      · rw [if_pos (by simpa using haa)] at hfa
        cases hfa
      · rw [if_neg (by simpa using haa)] at hfa
        exact haa hfa

/-- Witness for C8 on a concrete window (newline inside, long tail cut at
200 characters). -/
theorem C8_witness :
    contextWindow ("x Currency:\nUSD tail".data) ("Currency:".data) =
      some (pyStrip (replaceNl ((("x Currency:\nUSD tail".data).drop 2).take 200))) ∧
    (pyStrip (replaceNl ((("x Currency:\nUSD tail".data).drop 2).take 200))).length ≤ 200 ∧
    (∀ c ∈ pyStrip (replaceNl ((("x Currency:\nUSD tail".data).drop 2).take 200)), c ≠ '\n') := by
  have hcw : contextWindow ("x Currency:\nUSD tail".data) ("Currency:".data) =
      some (pyStrip (replaceNl ((("x Currency:\nUSD tail".data).drop 2).take 200))) := by
    decide
  have h := C8_context_window ("x Currency:\nUSD tail".data) ("Currency:".data) _ hcw
  exact ⟨hcw, h.1, h.2.1⟩

/-- Structure of a successful invoice-number capture:
digits, whitespace, `/`, whitespace, digits. -/
lemma invNumTail_some {t g : List Char} (h : invNumTail t = some g) :
    ∃ d1 w1 w2 d2 : List Char, g = d1 ++ w1 ++ '/' :: (w2 ++ d2) ∧
      d1 ≠ [] ∧ d2 ≠ [] ∧ (∀ c ∈ d1, isPyDigit c = true) ∧ (∀ c ∈ d2, isPyDigit c = true) ∧
      (∀ c ∈ w1, isPySpace c = true) ∧ (∀ c ∈ w2, isPySpace c = true) := by
  cases t with
  | nil => simp [invNumTail] at h
  | cons c rest =>
    simp only [invNumTail] at h
    by_cases hc : c = '№'
    · rw [if_pos (by simpa using hc)] at h
      by_cases hd1 : ((rest.dropWhile isPySpace).takeWhile isPyDigit).isEmpty
      · rw [if_pos hd1] at h
        cases h
      · rw [if_neg hd1] at h
        split at h
        · rename_i r2 heq
          by_cases hd2 : ((r2.dropWhile isPySpace).takeWhile isPyDigit).isEmpty
          · rw [if_pos hd2] at h
            cases h
          · rw [if_neg hd2] at h
            cases h
            refine ⟨_, _, _, _, rfl, by simpa [List.isEmpty_iff] using hd1,
              by simpa [List.isEmpty_iff] using hd2, ?_, ?_, ?_, ?_⟩
            all_goals exact fun c hc => List.mem_takeWhile_imp hc
        · cases h
    · rw [if_neg (by simpa using hc)] at h
      cases h

/-- The last element of an append with a nonempty right part. -/
lemma getLast?_append_right {x y : List Char} (h : y ≠ []) :
    (x ++ y).getLast? = y.getLast? := by
  rw [List.getLast?_append]
  cases hy : y.getLast? with
  | none => exact absurd (List.getLast?_eq_none_iff.mp hy) h
  | some a => rfl

/-- A successful invoice-number capture survives `clean_cyrillic` and
`strip` unchanged, starts with a digit and ends with a digit. -/
lemma invNum_capture_clean_strip {t g : List Char} (h : invNumTail t = some g) :
    cleanCyrillic g = g ∧ pyStrip g = g ∧ g ≠ [] ∧
      (∀ c ∈ g.head?, isPySpace c = false) ∧ (∀ c ∈ g.getLast?, isPySpace c = false) := by
  obtain ⟨d1, w1, w2, d2, hg, hd1ne, hd2ne, hd1, hd2, hw1, hw2⟩ := invNumTail_some h
  subst hg
  have hmem : ∀ c ∈ d1 ++ w1 ++ '/' :: (w2 ++ d2),
      isPyDigit c = true ∨ isPySpace c = true ∨ c = '/' := by
    intro c hc
    rcases List.mem_append.mp hc with hc1 | hc2
    · rcases List.mem_append.mp hc1 with hca | hcb
      · exact Or.inl (hd1 c hca)
      · exact Or.inr (Or.inl (hw1 c hcb))
    · rcases List.mem_cons.mp hc2 with rfl | hc3
      · exact Or.inr (Or.inr rfl)
      · rcases List.mem_append.mp hc3 with hca | hcb
        · exact Or.inr (Or.inl (hw2 c hca))
        · exact Or.inl (hd2 c hcb)
  have hhead : (d1 ++ w1 ++ '/' :: (w2 ++ d2)).head? = d1.head? := by
    rw [List.append_assoc, List.head?_append]
    cases hh : d1.head? with
    | none => exact absurd (by simpa using hh) hd1ne
    | some a => rfl
  have hlast : (d1 ++ w1 ++ '/' :: (w2 ++ d2)).getLast? = d2.getLast? := by
    rw [getLast?_append_right (show ('/' :: (w2 ++ d2) : List Char) ≠ [] by simp)]
    rw [show ('/' :: (w2 ++ d2) : List Char) = ('/' :: w2) ++ d2 from rfl]
    rw [getLast?_append_right hd2ne]
  refine ⟨?_, ?_, ?_, ?_, ?_⟩
  · rw [cleanCyrillic, List.filter_eq_self]
    intro c hc
    rcases hmem c hc with hdig | hsp | rfl
    · simp [isPyDigit_not_cyr hdig]
    · simp [isPySpace_not_cyr hsp]
    · decide
  · refine pyStrip_eq_self ?_ ?_
    · rw [hhead]
      intro c hc
      exact isPyDigit_not_space (hd1 c (List.mem_of_mem_head? hc))
    · rw [hlast]
      intro c hc
      exact isPyDigit_not_space (hd2 c (List.mem_of_mem_getLast? hc))
  · simp
  · rw [hhead]
    intro c hc
    exact isPyDigit_not_space (hd1 c (List.mem_of_mem_head? hc))
  · rw [hlast]
    intro c hc
    exact isPyDigit_not_space (hd2 c (List.mem_of_mem_getLast? hc))

/-- C10: the supplier extractor trims the capture before removing the
Cyrillic block, so removal can expose whitespace at an edge: on
`"Supplier Ф Acme, x"` it returns `" Acme"` with a leading space, an
untrimmed value.  The currency and invoice-number extractors remove
first and trim after (the invoice-number capture cannot even expose
whitespace), so their results are always fixed points of `strip`. -/
theorem C10_supplier_trim_order :
    extract_supplier ("Supplier Ф Acme, x".data) = " Acme".data ∧
    pyStrip (extract_supplier ("Supplier Ф Acme, x".data)) ≠
      extract_supplier ("Supplier Ф Acme, x".data) ∧
    (∀ s : List Char, pyStrip (extract_currency s) = extract_currency s) ∧
    (∀ s : List Char, pyStrip (extract_invoice_number s) = extract_invoice_number s) := by
  refine ⟨by decide, by decide, ?_, ?_⟩
  · intro s
    unfold extract_currency
    cases hr : reSearch (fun t => stripLit ("Currency:".data) t >>= currencyTail) s with
    | none => rfl
    | some g =>
      show pyStrip (pyStrip (cleanCyrillic g)) = pyStrip (cleanCyrillic g)
      exact pyStrip_idem _
  · intro s
    unfold extract_invoice_number
    cases hr : reSearch (fun t => stripLit ("Invoice".data) t >>= lazyScan invNumTail) s with
    | none => rfl
    | some g =>
      obtain ⟨j, hj⟩ := reSearch_some hr
      obtain ⟨-, hk⟩ := stripLit_bind_some hj
      obtain ⟨j2, hj2⟩ := lazyScan_some hk
      obtain ⟨hclean, hstrip, hne, hhead, hlast⟩ := invNum_capture_clean_strip hj2
      show pyStrip ("№ ".data ++ pyStrip (cleanCyrillic g)) = "№ ".data ++ pyStrip (cleanCyrillic g)
      rw [hclean, hstrip]
      refine pyStrip_eq_self ?_ ?_
      · intro c hc
        rw [show ("№ ".data ++ g).head? = some '№' from rfl] at hc
        cases hc
        decide
      · intro c hc
        rw [show ("№ ".data ++ g) = '№' :: (' ' :: g) from rfl,
          show ('№' :: (' ' :: g)).getLast? = (('№' :: [' ']) ++ g).getLast? from rfl,
          getLast?_append_right hne] at hc
        exact hlast c hc

/-- When `firstOcc` fails, the needle occurs nowhere. -/
lemma firstOcc_none_elim {nee s : List Char} (h : firstOcc nee s = none) :
    ∀ q, nee.isPrefixOf (s.drop q) = false := by
  induction s with
  | nil =>
    intro q
    by_cases hne : nee.isEmpty
    · simp [firstOcc, hne] at h
    · rw [List.drop_nil]
      cases nee with
      | nil => simp [List.isEmpty_iff] at hne
      | cons x xs => rfl
  | cons c rest ih =>
    intro q
    by_cases h0 : nee.isPrefixOf (c :: rest)
    · simp [firstOcc, h0] at h
    · rw [show firstOcc nee (c :: rest)
          = if nee.isPrefixOf (c :: rest) then some 0
            else (firstOcc nee rest).map (· + 1) from rfl, if_neg h0] at h
      match q with
      | 0 =>
        rw [List.drop_zero]
        exact eq_false_of_ne_true h0
      | q' + 1 =>
        rw [List.drop_succ_cons]
        exact ih (by simpa using h) q'

/-- Mapping newlines to spaces cannot fabricate a space-free string:
its only preimage is itself. -/
lemma replaceNl_eq_of_nospace {k kw : List Char} (hsp : ∀ c ∈ kw, c ≠ ' ')
    (h : replaceNl k = kw) : k = kw := by
  induction k generalizing kw with
  | nil => simpa [replaceNl] using h.symm
  | cons c cs ih =>
    cases kw with
    | nil => simp [replaceNl] at h
    | cons d ds =>
      unfold replaceNl at h
      rw [List.map_cons] at h
      injection h with h1 h2
      have hd : d ≠ ' ' := hsp d (List.mem_cons_self d ds)
      have hcd : c = d := by
        by_cases hcn : c = '\n'
        · rw [if_pos (by simpa using hcn)] at h1
          exact absurd h1.symm hd
        · rwa [if_neg (by simpa using hcn)] at h1
      rw [hcd, ih (fun x hx => hsp x (List.mem_cons_of_mem d hx)) h2]

/-- An occurrence inside a context window of a space-free, newline-free
pattern comes from an occurrence in the underlying text. -/
lemma window_occurrence {b kw : List Char} {p j : Nat} (hsp : ∀ c ∈ kw, c ≠ ' ')
    (hj : kw.isPrefixOf ((pyStrip (replaceNl ((b.drop p).take 200))).drop j) = true) :
    ∃ q, kw.isPrefixOf (b.drop q) = true := by
  have h1 : kw <:+: pyStrip (replaceNl ((b.drop p).take 200)) :=
    List.infix_iff_prefix_suffix.mpr
      ⟨_, prefixOf_iff.mp hj, List.drop_suffix j _⟩
  have h2 : kw <:+: replaceNl ((b.drop p).take 200) :=
    h1.trans (pyStrip_contig _)
  obtain ⟨sl, tl, hmap⟩ := h2
  obtain ⟨s1, rest1, hb1, hs1, hrest1⟩ := List.map_eq_append_iff.mp hmap.symm
  obtain ⟨s1a, k1, hb2, -, hk1⟩ := List.map_eq_append_iff.mp hs1
  have hkk : k1 = kw := replaceNl_eq_of_nospace hsp hk1
  have hinfix : kw <:+: (b.drop p).take 200 :=
    ⟨s1a, rest1, by rw [hb1, hb2, hkk]⟩
  have hinfix2 : kw <:+: b :=
    hinfix.trans (List.infix_iff_prefix_suffix.mpr
      ⟨b.drop p, List.take_prefix 200 _, List.drop_suffix p b⟩)
  obtain ⟨s2, t2, hbb⟩ := hinfix2
  refine ⟨s2.length, ?_⟩
  rw [← hbb, List.append_assoc, List.drop_left]
  exact prefixOf_iff.mpr (List.prefix_append kw t2)

/-- If every context of a keyword is empty the occurrence loop changes
nothing. -/
lemma occLoop_const {fullText keyword : List Char}
    (hemp : ∀ i, get_context (fullText.drop i) keyword = []) :
    ∀ (index : Nat) (st : SearchState), occLoop fullText keyword index st = st := by
  refine occLoop.induct fullText keyword
    (fun index st => occLoop fullText keyword index st = st) ?_ ?_ ?_ ?_
  · intro index st h
    rw [occLoop.eq_def, dif_pos h]
  · intro index st hk hf
    rw [occLoop_none st hk hf]
  · intro index st hk i hf res hbrk
    exfalso
    have hres : res = applyMatch keyword (get_context (fullText.drop i) keyword) st := rfl
    rw [hres, hemp i] at hbrk
    simp [applyMatch] at hbrk
  · intro index st hk i hf res hbrk ih
    have happ : applyMatch keyword (get_context (fullText.drop i) keyword) st = (st, false) := by
      rw [hemp i]
      simp [applyMatch]
    have hres : res = applyMatch keyword (get_context (fullText.drop i) keyword) st := rfl
    rw [occLoop_some st hk hf, if_neg hbrk, happ]
    rw [hres, happ] at ih
    exact ih

/-- A keyword whose contexts are all empty leaves the state unchanged. -/
lemma kwStep_const {fullText keyword : List Char}
    (hemp : ∀ i, get_context (fullText.drop i) keyword = []) (st : SearchState) :
    kwStep fullText st keyword = st := by
  unfold kwStep
  split_ifs
  · rfl
  · exact occLoop_const hemp 0 st

/-- Record projections untouched by a keyword's assignment survive its
`kwStep`. -/
lemma kwStep_proj {β : Type} (proj : Record → β) (fullText keyword : List Char)
    (hpres : ∀ c r, proj (assignField keyword c r) = proj r) (st : SearchState) :
    proj ((kwStep fullText st keyword).record) = proj st.record := by
  unfold kwStep
  split_ifs
  · rfl
  · exact occLoop_proj proj fullText keyword hpres 0 st

/-- A keyword not starting with `"Invoice"` never writes the invoice
slot. -/
lemma assignField_invoice_of {keyword : List Char}
    (h : ("Invoice".data).isPrefixOf keyword = false) (c : List Char) (r : Record) :
    (assignField keyword c r).invoice = r.invoice := by
  unfold assignField
  split_ifs <;> first | rfl | exact absurd (by assumption) (by simp [h])

/-- A keyword other than `"Supplier"` never writes the supplier slot. -/
lemma assignField_supplier_of {keyword : List Char}
    (h : keyword ≠ "Supplier".data) (c : List Char) (r : Record) :
    (assignField keyword c r).supplier = r.supplier := by
  unfold assignField
  split_ifs <;> first | rfl | exact absurd (by assumption) (by simp [h])

/-- A keyword other than `"Currency:"` never writes the currency slot. -/
lemma assignField_currency_of {keyword : List Char}
    (h : keyword ≠ "Currency:".data) (c : List Char) (r : Record) :
    (assignField keyword c r).currency = r.currency := by
  unfold assignField
  split_ifs <;> first | rfl | exact absurd (by assumption) (by simp [h])

/-- A keyword other than `"Date of invoice:"` (by prefix) never writes
the date slot. -/
lemma assignField_date_of {keyword : List Char}
    (h : ("Date of invoice:".data).isPrefixOf keyword = false) (c : List Char) (r : Record) :
    (assignField keyword c r).date_of_invoice = r.date_of_invoice := by
  unfold assignField
  split_ifs <;> first | rfl | exact absurd (by assumption) (by simp [h])

/-- If the case-sensitive literal `"Invoice"` occurs nowhere in the text,
every `"Invoice"` context is empty. -/
lemma get_context_invoice_empty {text : List Char}
    (habs : ∀ q, ("Invoice".data).isPrefixOf (text.drop q) = false) :
    ∀ i, get_context (text.drop i) ("Invoice".data) = [] := by
  intro i
  unfold get_context
  cases hcw : contextWindow (text.drop i) ("Invoice".data) with
  | none => rfl
  | some w =>
    unfold contextWindow at hcw
    cases hf : pyFind (lowerL (text.drop i)) (lowerL ("Invoice".data)) 0 with
    | none => rw [hf] at hcw; cases hcw
    | some p =>
      rw [hf] at hcw
      have hw : w = pyStrip (replaceNl (((text.drop i).drop p).take 200)) := by
        cases hcw
        rfl
      subst hw
      show process_match ("Invoice".data) _ = []
      unfold process_match
      rw [if_pos (by decide)]
      unfold extract_invoice_number
      cases hr : reSearch (fun t => stripLit ("Invoice".data) t >>= lazyScan invNumTail)
          (pyStrip (replaceNl (((text.drop i).drop p).take 200))) with
      | none => rfl
      | some g =>
        exfalso
        obtain ⟨j, hj⟩ := reSearch_some hr
        obtain ⟨hpre, -⟩ := stripLit_bind_some hj
        obtain ⟨q, hq⟩ := window_occurrence (b := text.drop i) (by decide) hpre
        rw [List.drop_drop] at hq
        rw [habs (i + q)] at hq
        cases hq

/-- If the case-sensitive literal `"Supplier"` occurs nowhere in the
text, every `"Supplier"` context is empty. -/
lemma get_context_supplier_empty {text : List Char}
    (habs : ∀ q, ("Supplier".data).isPrefixOf (text.drop q) = false) :
    ∀ i, get_context (text.drop i) ("Supplier".data) = [] := by
  intro i
  unfold get_context
  cases hcw : contextWindow (text.drop i) ("Supplier".data) with
  | none => rfl
  | some w =>
    unfold contextWindow at hcw
    cases hf : pyFind (lowerL (text.drop i)) (lowerL ("Supplier".data)) 0 with
    | none => rw [hf] at hcw; cases hcw
    | some p =>
      rw [hf] at hcw
      have hw : w = pyStrip (replaceNl (((text.drop i).drop p).take 200)) := by
        cases hcw
        rfl
      subst hw
      show process_match ("Supplier".data) _ = []
      unfold process_match
      rw [if_neg (by decide), if_neg (by decide), if_pos (by decide)]
      unfold extract_supplier
      cases hr : reSearch (fun t => stripLit ("Supplier".data) t >>= supplierTail)
          (pyStrip (replaceNl (((text.drop i).drop p).take 200))) with
      | none => rfl
      | some g =>
        exfalso
        obtain ⟨j, hj⟩ := reSearch_some hr
        obtain ⟨hpre, -⟩ := stripLit_bind_some hj
        obtain ⟨q, hq⟩ := window_occurrence (b := text.drop i) (by decide) hpre
        rw [List.drop_drop] at hq
        rw [habs (i + q)] at hq
        cases hq

/-- If the case-sensitive literal `"Currency:"` occurs nowhere in the
text, every `"Currency:"` context is empty. -/
lemma get_context_currency_empty {text : List Char}
    (habs : ∀ q, ("Currency:".data).isPrefixOf (text.drop q) = false) :
    ∀ i, get_context (text.drop i) ("Currency:".data) = [] := by
  intro i
  unfold get_context
  cases hcw : contextWindow (text.drop i) ("Currency:".data) with
  | none => rfl
  | some w =>
    unfold contextWindow at hcw
    cases hf : pyFind (lowerL (text.drop i)) (lowerL ("Currency:".data)) 0 with
    | none => rw [hf] at hcw; cases hcw
    | some p =>
      rw [hf] at hcw
      have hw : w = pyStrip (replaceNl (((text.drop i).drop p).take 200)) := by
        cases hcw
        rfl
      subst hw
      show process_match ("Currency:".data) _ = []
      unfold process_match
      rw [if_neg (by decide), if_neg (by decide), if_neg (by decide), if_neg (by decide),
        if_pos (by decide)]
      unfold extract_currency
      cases hr : reSearch (fun t => stripLit ("Currency:".data) t >>= currencyTail)
          (pyStrip (replaceNl (((text.drop i).drop p).take 200))) with
      | none => rfl
      | some g =>
        exfalso
        obtain ⟨j, hj⟩ := reSearch_some hr
        obtain ⟨hpre, -⟩ := stripLit_bind_some hj
        obtain ⟨q, hq⟩ := window_occurrence (b := text.drop i) (by decide) hpre
        rw [List.drop_drop] at hq
        rw [habs (i + q)] at hq
        cases hq

/-- C9 counterexample: the claim fails for the date keyword, whose
extractor literal is `"Date of invoice"` without the colon.  This text
contains the configured keyword `"Date of invoice:"` only as
`"DATE OF INVOICE:"` (the exact literal occurs nowhere), the scanner
finds the occurrence, and extraction still returns a date because the
window contains the colon-less `"Date of invoice"`. -/
theorem C9_counterexample :
    firstOcc ("Date of invoice:".data)
      ("DATE OF INVOICE: see Date of invoice 05.09.2023".data) = none ∧
    pyFind (lowerL ("DATE OF INVOICE: see Date of invoice 05.09.2023".data))
      (lowerL ("Date of invoice:".data)) 0 = some 0 ∧
    (searchText "doc.pdf" keywordsList
        ("DATE OF INVOICE: see Date of invoice 05.09.2023".data)).date_of_invoice =
      "05.09.2023".data := by
  refine ⟨by decide, by decide, ?_⟩
  rw [searchText_eq_F]
  decide

/-- C9 (amended): for the keywords whose extractor literal equals the
configured keyword and contains no space — `"Invoice"`, `"Supplier"` and
`"Currency:"` — a document containing the keyword in no exact
case-sensitive form leaves the corresponding field empty, even though
the scanner still finds any case-insensitive occurrence.  (For
`"Date of invoice:"` the extractor drops the colon, and for the
space-containing keywords newline replacement inside the window can
fabricate the literal, so the original claim fails there.) -/
theorem C9_case_sensitive_extractors :
    (∀ (path : String) (text : List Char),
      (∀ q, ("Invoice".data).isPrefixOf (text.drop q) = false) →
        (searchText path keywordsList text).invoice = []) ∧
    (∀ (path : String) (text : List Char),
      (∀ q, ("Supplier".data).isPrefixOf (text.drop q) = false) →
        (searchText path keywordsList text).supplier = []) ∧
    (∀ (path : String) (text : List Char),
      (∀ q, ("Currency:".data).isPrefixOf (text.drop q) = false) →
        (searchText path keywordsList text).currency = []) ∧
    (∀ (keyword text : List Char) (j : Nat),
      (lowerL keyword).isPrefixOf ((lowerL text).drop j) = true →
        pyFind (lowerL text) (lowerL keyword) 0 ≠ none) := by
  refine ⟨?_, ?_, ?_, ?_⟩
  · intro path text habs
    unfold searchText
    simp only [keywordsList, List.foldl]
    rw [kwStep_const (get_context_invoice_empty habs)]
    rw [kwStep_proj Record.invoice text ("Currency:".data) (assignField_invoice_of (by decide)),
      kwStep_proj Record.invoice text ("Price of the services rendered:".data)
        (assignField_invoice_of (by decide)),
      kwStep_proj Record.invoice text ("Supplier".data) (assignField_invoice_of (by decide)),
      kwStep_proj Record.invoice text ("Date of invoice:".data)
        (assignField_invoice_of (by decide))]
    rfl
  · intro path text habs
    unfold searchText
    simp only [keywordsList, List.foldl]
    rw [kwStep_const (get_context_supplier_empty habs)]
    rw [kwStep_proj Record.supplier text ("Currency:".data) (assignField_supplier_of (by decide)),
      kwStep_proj Record.supplier text ("Price of the services rendered:".data)
        (assignField_supplier_of (by decide)),
      kwStep_proj Record.supplier text ("Date of invoice:".data)
        (assignField_supplier_of (by decide)),
      kwStep_proj Record.supplier text ("Invoice".data) (assignField_supplier_of (by decide))]
    rfl
  · intro path text habs
    unfold searchText
    simp only [keywordsList, List.foldl]
    rw [kwStep_const (get_context_currency_empty habs)]
    rw [kwStep_proj Record.currency text ("Price of the services rendered:".data)
        (assignField_currency_of (by decide)),
      kwStep_proj Record.currency text ("Supplier".data) (assignField_currency_of (by decide)),
      kwStep_proj Record.currency text ("Date of invoice:".data)
        (assignField_currency_of (by decide)),
      kwStep_proj Record.currency text ("Invoice".data) (assignField_currency_of (by decide))]
    rfl
  · intro keyword text j hj hnone
    unfold pyFind at hnone
    rw [List.drop_zero] at hnone
    have hfo : firstOcc (lowerL keyword) (lowerL text) = none := by
      cases hfo : firstOcc (lowerL keyword) (lowerL text) with
      | none => rfl
      | some p => rw [hfo] at hnone; cases hnone
    have hfalse := firstOcc_none_elim hfo j
    rw [hj] at hfalse
    cases hfalse

/-- Witness for the amended C9: a document with the supplier keyword only
in upper case keeps its supplier field empty. -/
theorem C9_witness :
    (searchText "w.pdf" keywordsList ("SUPPLIER Acme, x".data)).supplier = [] :=
  C9_case_sensitive_extractors.2.1 "w.pdf" ("SUPPLIER Acme, x".data)
    (firstOcc_none_elim (by decide))

/-- Introduction rule for `firstOcc`: an occurrence with nothing before
it is the first one. -/
lemma firstOcc_intro {nee s : List Char} {p : Nat}
    (hocc : nee.isPrefixOf (s.drop p) = true)
    (hmin : ∀ q, q < p → nee.isPrefixOf (s.drop q) = false) :
    firstOcc nee s = some p := by
  induction s generalizing p with
  | nil =>
    cases p with
    | zero =>
      rw [List.drop_nil] at hocc
      have hne : nee.isEmpty = true := by
        cases nee with
        | nil => rfl
        | cons x xs => cases hocc
      simp [firstOcc, hne]
    | succ q =>
      have h0 := hmin 0 (Nat.succ_pos q)
      rw [List.drop_nil] at h0 hocc
      rw [hocc] at h0
      cases h0
  | cons c rest ih =>
    by_cases h0 : nee.isPrefixOf (c :: rest)
    · cases p with
      | zero => simp [firstOcc, h0]
      | succ q =>
        have hmin0 := hmin 0 (Nat.succ_pos q)
        rw [List.drop_zero] at hmin0
        rw [hmin0] at h0
        cases h0
    · cases p with
      | zero =>
        rw [List.drop_zero] at hocc
        exact absurd hocc (by simpa using h0)
      | succ q =>
        rw [show firstOcc nee (c :: rest)
            = if nee.isPrefixOf (c :: rest) then some 0
              else (firstOcc nee rest).map (· + 1) from rfl, if_neg h0]
        rw [ih (by simpa using hocc) (fun q' hq' => by simpa using hmin (q' + 1) (by omega))]
        rfl

/-- Introduction rule for an absent needle. -/
lemma firstOcc_none_intro {nee s : List Char}
    (h : ∀ q, nee.isPrefixOf (s.drop q) = false) : firstOcc nee s = none := by
  induction s with
  | nil =>
    have h0 := h 0
    rw [List.drop_nil] at h0
    have : ¬ nee.isEmpty = true := by
      intro he
      rw [List.isEmpty_iff] at he
      subst he
      cases h0
    simp [firstOcc, this]
  | cons c rest ih =>
    have h0 : nee.isPrefixOf (c :: rest) = false := by
      have hh := h 0
      rwa [List.drop_zero] at hh
    rw [show firstOcc nee (c :: rest)
        = if nee.isPrefixOf (c :: rest) then some 0
          else (firstOcc nee rest).map (· + 1) from rfl,
      if_neg (fun hcon => by rw [h0] at hcon; cases hcon)]
    rw [ih (fun q => by simpa using h (q + 1))]
    rfl

/-- Introduction rule for `pyFind`. -/
lemma pyFind_intro {hay nee : List Char} {start i : Nat} (h1 : start ≤ i)
    (h2 : nee.isPrefixOf (hay.drop i) = true)
    (h3 : ∀ j, start ≤ j → j < i → nee.isPrefixOf (hay.drop j) = false) :
    pyFind hay nee start = some i := by
  unfold pyFind
  have hfo : firstOcc nee (hay.drop start) = some (i - start) := by
    refine firstOcc_intro ?_ ?_
    · rw [List.drop_drop]
      have he : start + (i - start) = i := by omega
      rw [he]
      exact h2
    · intro q hq
      rw [List.drop_drop]
      exact h3 (start + q) (by omega) (by omega)
  rw [hfo]
  simp
  omega

/-- `pyFind` fails when the needle is absent from `start` on. -/
lemma pyFind_none_intro {hay nee : List Char} {start : Nat}
    (h : ∀ j, start ≤ j → nee.isPrefixOf (hay.drop j) = false) :
    pyFind hay nee start = none := by
  unfold pyFind
  rw [firstOcc_none_intro (fun q => by
    rw [List.drop_drop]
    exact h (start + q) (by omega))]
  rfl

/-- `pyFind` from zero of a needle at the very head. -/
lemma pyFind_zero {hay nee : List Char} (h : nee.isPrefixOf hay = true) :
    pyFind hay nee 0 = some 0 :=
  pyFind_intro (Nat.le_refl 0) (by rwa [List.drop_zero]) (fun j _ hj => absurd hj (by omega))

/-- `reSearch` succeeds immediately when the matcher succeeds at the
head. -/
lemma reSearch_head {f : List Char → Option (List Char)} {s r : List Char}
    (h : f s = some r) : reSearch f s = some r := by
  cases s with
  | nil => exact h
  | cons c rest =>
    rw [show reSearch f (c :: rest)
        = (match f (c :: rest) with | some r => some r | none => reSearch f rest) from rfl, h]

/-- A prefix stays a prefix under a longer right end. -/
lemma prefixOf_append_of {a b x : List Char} (h : a.isPrefixOf b = true) :
    a.isPrefixOf (b ++ x) = true :=
  prefixOf_iff.mpr ((prefixOf_iff.mp h).trans (List.prefix_append b x))

/-- Head of an append with a nonempty left part. -/
lemma head?_append_left {x y : List Char} (h : x ≠ []) : (x ++ y).head? = x.head? := by
  cases x with
  | nil => exact absurd rfl h
  | cons c cs => rfl

/-- A head predicate descends along prefixes. -/
lemma head_of_isPre {l₁ l₂ : List Char} (hpre : l₁ <+: l₂) {P : Char → Prop}
    (h : ∀ c ∈ l₂.head?, P c) : ∀ c ∈ l₁.head?, P c := by
  intro c hc
  have hne : l₁ ≠ [] := by
    intro hn
    rw [hn] at hc
    cases hc
  rw [← isPre_head hpre hne] at hc
  exact h c hc

/-- Newline replacement keeps a non-word head non-word. -/
lemma replaceNl_head_not_word {W : List Char} (h : ∀ c ∈ W.head?, isPyWord c = false) :
    ∀ c ∈ (replaceNl W).head?, isPyWord c = false := by
  cases W with
  | nil => intro c hc; cases hc
  | cons d ds =>
    intro c hc
    cases hc
    by_cases hd : d = '\n'
    · show isPyWord (if d == '\n' then ' ' else d) = false
      rw [if_pos (by simpa using hd)]
      decide
    · show isPyWord (if d == '\n' then ' ' else d) = false
      rw [if_neg (by simpa using hd)]
      exact h d rfl

/-- Trailing strip passes over a left block whose last element is not
whitespace. -/
lemma stripTrailing_append {x y : List Char}
    (hx : ∀ c ∈ x.getLast?, isPySpace c = false) :
    stripTrailing (x ++ y) = x ++ stripTrailing y := by
  unfold stripTrailing
  rw [List.reverse_append, List.dropWhile_append]
  by_cases hy : (y.reverse.dropWhile isPySpace).isEmpty
  · rw [if_pos hy]
    rw [dropWhile_head_not (by rw [List.head?_reverse]; exact hx)]
    rw [List.reverse_reverse]
    rw [List.isEmpty_iff] at hy
    rw [hy]
    simp
  · rw [if_neg hy]
    rw [List.reverse_append, List.reverse_reverse]

/-- Newline replacement is the identity on newline-free strings. -/
lemma replaceNl_eq_self {l : List Char} (h : ∀ x ∈ l, x ≠ '\n') : replaceNl l = l := by
  unfold replaceNl
  have hc := List.map_congr_left (f := fun c => if c == '\n' then ' ' else c) (g := id)
    (l := l) (fun a ha => by simp [h a ha])
  simpa using hc

/-- `replaceNl` distributes over append. -/
lemma replaceNl_append (x y : List Char) : replaceNl (x ++ y) = replaceNl x ++ replaceNl y :=
  List.map_append _ x y

/-- `lowerL` distributes over append. -/
lemma lowerL_append (x y : List Char) : lowerL (x ++ y) = lowerL x ++ lowerL y :=
  List.map_append _ x y

/-- `get_context` through a located window. -/
lemma get_context_eq {text keyword : List Char} {p : Nat}
    (h : pyFind (lowerL text) (lowerL keyword) 0 = some p) :
    get_context text keyword =
      process_match keyword (pyStrip (replaceNl ((text.drop p).take 200))) := by
  unfold get_context contextWindow
  rw [h]

/-- The value a `"Currency:"` context delivers on a text that starts with
`"Currency: "` followed by a word and a non-word continuation. -/
lemma extract_currency_value {V R : List Char} (hV1 : V ≠ [])
    (hV2 : ∀ c ∈ V, isPyWord c = true) (hR : ∀ c ∈ R.head?, isPyWord c = false) :
    extract_currency ("Currency: ".data ++ (V ++ R)) = pyStrip (cleanCyrillic V) := by
  have harg : ("Currency: ".data ++ (V ++ R)) = ("Currency:".data) ++ (' ' :: (V ++ R)) := rfl
  have hdw : (' ' :: (V ++ R)).dropWhile isPySpace = V ++ R := by
    rw [List.dropWhile_cons, if_pos (by decide)]
    exact dropWhile_head_not (p := isPySpace) (b := V ++ R) (by
      rw [head?_append_left hV1]
      intro c hc
      exact isPyWord_not_space (hV2 c (List.mem_of_mem_head? hc)))
  have htw : (V ++ R).takeWhile isPyWord = V := by
    rw [takeWhile_append_all hV2, takeWhile_head_not hR, List.append_nil]
  have htail : currencyTail (' ' :: (V ++ R)) = some V := by
    simp only [currencyTail]
    rw [hdw, htw, if_neg (by simpa [List.isEmpty_iff] using hV1)]
  have hf : (fun t => stripLit ("Currency:".data) t >>= currencyTail)
      ("Currency: ".data ++ (V ++ R)) = some V := by
    show stripLit ("Currency:".data) ("Currency: ".data ++ (V ++ R)) >>= currencyTail = some V
    rw [harg]
    unfold stripLit
    rw [if_pos (prefixOf_iff.mpr (List.prefix_append _ _)), List.drop_left]
    simpa using htail
  unfold extract_currency
  rw [reSearch_head hf]

/-- The `"Currency:"` context value on a text beginning with a currency
block followed by non-word material. -/
lemma get_context_currency_block {V Y : List Char} (hV1 : V ≠ [])
    (hV2 : ∀ c ∈ V, isPyWord c = true)
    (hVlen : ("Currency: ".data ++ V).length ≤ 200)
    (hY : ∀ c ∈ Y.head?, isPyWord c = false) :
    get_context (("Currency: ".data ++ V) ++ Y) ("Currency:".data) =
      pyStrip (cleanCyrillic V) := by
  have hAne : ("Currency: ".data ++ V) ≠ [] := by simp
  have hVnl : ∀ c ∈ "Currency: ".data ++ V, c ≠ '\n' := by
    intro c hc
    rcases List.mem_append.mp hc with hc1 | hc2
    · fin_cases hc1 <;> decide
    · intro hcon
      subst hcon
      exact absurd (hV2 _ hc2) (by decide)
  have hpref : (lowerL ("Currency:".data)).isPrefixOf
      (lowerL (("Currency: ".data ++ V) ++ Y)) = true := by
    rw [lowerL_append, lowerL_append]
    rw [show lowerL ("Currency: ".data) = "currency: ".data from by decide]
    rw [List.append_assoc]
    exact prefixOf_append_of (by decide)
  rw [get_context_eq (pyFind_zero hpref), List.drop_zero]
  rw [List.take_append_eq_append_take, List.take_of_length_le hVlen]
  rw [replaceNl_append, replaceNl_eq_self hVnl]
  have hhead : ∀ c ∈ (("Currency: ".data ++ V) ++
      replaceNl (Y.take (200 - ("Currency: ".data ++ V).length))).head?, isPySpace c = false := by
    rw [head?_append_left hAne, head?_append_left (by decide)]
    intro c hc
    cases hc
    decide
  have hlastA : ∀ c ∈ ("Currency: ".data ++ V).getLast?, isPySpace c = false := by
    rw [getLast?_append_right hV1]
    intro c hc
    exact isPyWord_not_space (hV2 c (List.mem_of_mem_getLast? hc))
  rw [show pyStrip (("Currency: ".data ++ V) ++
        replaceNl (Y.take (200 - ("Currency: ".data ++ V).length)))
      = stripTrailing ((("Currency: ".data ++ V) ++
        replaceNl (Y.take (200 - ("Currency: ".data ++ V).length))).dropWhile isPySpace)
      from rfl]
  rw [dropWhile_head_not hhead, stripTrailing_append hlastA]
  rw [List.append_assoc]
  show extract_currency _ = _
  exact extract_currency_value hV1 hV2
    (head_of_isPre (stripTrailing_pre _)
      (replaceNl_head_not_word (head_of_isPre (List.take_prefix _ _) hY)))

/-- One `"Currency:"` occurrence with a non-empty context: write the slot
and move past the keyword. -/
lemma occLoop_currency_step {T : List Char} {i idx : Nat} (st : SearchState) {v : List Char}
    (hf : pyFind (lowerL T) ("currency:".data) idx = some i)
    (hctx : get_context (T.drop i) ("Currency:".data) = v) (hv : v ≠ []) :
    occLoop T ("Currency:".data) idx st =
      occLoop T ("Currency:".data) (i + 9)
        ⟨{ st.record with currency := v }, st.supplierFound⟩ := by
  rw [occLoop_some st (by decide)
    (by rw [show lowerL ("Currency:".data) = "currency:".data from by decide]; exact hf)]
  rw [hctx]
  have happ : applyMatch ("Currency:".data) v st =
      (⟨{ st.record with currency := v }, st.supplierFound⟩, false) := by
    unfold applyMatch
    rw [if_neg (by simpa [List.isEmpty_iff] using hv)]
    have hsup : isSupplierHit ("Currency:".data) v = false := by
      unfold isSupplierHit
      rw [show (("Currency:".data == "Supplier".data) : Bool) = false from by decide]
      rfl
    have hasn : assignField ("Currency:".data) v st.record = { st.record with currency := v } := by
      unfold assignField
      rw [if_neg (by decide), if_neg (by decide), if_neg (by decide), if_neg (by decide),
        if_pos rfl]
    rw [hsup, hasn]
    simp
  rw [happ]
  rw [if_neg (by simp)]
  rw [show ("Currency:".data).length = 9 from by decide]

/-- No further `"Currency:"` occurrence: the loop stops. -/
lemma occLoop_currency_end {T : List Char} {idx : Nat} (st : SearchState)
    (hf : pyFind (lowerL T) ("currency:".data) idx = none) :
    occLoop T ("Currency:".data) idx st = st :=
  occLoop_none st (by decide)
    (by rw [show lowerL ("Currency:".data) = "currency:".data from by decide]; exact hf)

/-- Full trace of the `"Currency:"` occurrence loop on a document holding
exactly the occurrences `"Currency: USD"` and, later, `"Currency: EUR"`:
both are scanned, both overwrite, the later value stays. -/
lemma occLoop_currency_trace (pre mid post : List Char)
    (hmid : ∀ c ∈ mid.head?, isPyWord c = false) (hmidne : mid ≠ [])
    (hpost : ∀ c ∈ post.head?, isPyWord c = false)
    (hocc : ∀ j, ("currency:".data).isPrefixOf
        ((lowerL (pre ++ ("Currency: USD".data ++ (mid ++ ("Currency: EUR".data ++ post))))).drop j)
        = true → j = pre.length ∨ j = pre.length + (13 + mid.length)) :
    ∀ st : SearchState,
      occLoop (pre ++ ("Currency: USD".data ++ (mid ++ ("Currency: EUR".data ++ post))))
        ("Currency:".data) 0 st =
      ⟨{ st.record with currency := "EUR".data }, st.supplierFound⟩ := by
  intro st
  have hlowT : lowerL (pre ++ ("Currency: USD".data ++ (mid ++ ("Currency: EUR".data ++ post))))
      = lowerL pre ++ ("currency: usd".data ++ (lowerL mid ++ ("currency: eur".data ++ lowerL post))) := by
    rw [lowerL_append, lowerL_append, lowerL_append, lowerL_append]
    rw [show lowerL ("Currency: USD".data) = "currency: usd".data from by decide,
      show lowerL ("Currency: EUR".data) = "currency: eur".data from by decide]
  have hlp : (lowerL pre).length = pre.length := by simp [lowerL]
  have hlm : (lowerL mid).length = mid.length := by simp [lowerL]
  have hocc1 : ("currency:".data).isPrefixOf
      ((lowerL (pre ++ ("Currency: USD".data ++ (mid ++ ("Currency: EUR".data ++ post))))).drop
        pre.length) = true := by
    rw [hlowT, ← hlp, List.drop_left]
    exact prefixOf_append_of (by decide)
  have hocc2 : ("currency:".data).isPrefixOf
      ((lowerL (pre ++ ("Currency: USD".data ++ (mid ++ ("Currency: EUR".data ++ post))))).drop
        (pre.length + (13 + mid.length))) = true := by
    rw [hlowT]
    rw [show lowerL pre ++ ("currency: usd".data ++ (lowerL mid ++ ("currency: eur".data ++ lowerL post)))
        = (lowerL pre ++ ("currency: usd".data ++ lowerL mid)) ++ ("currency: eur".data ++ lowerL post)
        from by simp [List.append_assoc]]
    rw [show pre.length + (13 + mid.length)
        = (lowerL pre ++ ("currency: usd".data ++ lowerL mid)).length from by
      simp [List.length_append, hlp, hlm]
      omega]
    rw [List.drop_left]
    exact prefixOf_append_of (by decide)
  have hfind1 : pyFind
      (lowerL (pre ++ ("Currency: USD".data ++ (mid ++ ("Currency: EUR".data ++ post)))))
      ("currency:".data) 0 = some pre.length := by
    refine pyFind_intro (Nat.zero_le _) hocc1 ?_
    intro j hj1 hj2
    cases hcc : ("currency:".data).isPrefixOf
        ((lowerL (pre ++ ("Currency: USD".data ++ (mid ++ ("Currency: EUR".data ++ post))))).drop j) with
    | false => rfl
    | true => rcases hocc j hcc with h | h <;> omega
  have hfind2 : pyFind
      (lowerL (pre ++ ("Currency: USD".data ++ (mid ++ ("Currency: EUR".data ++ post)))))
      ("currency:".data) (pre.length + 9) = some (pre.length + (13 + mid.length)) := by
    refine pyFind_intro (by omega) hocc2 ?_
    intro j hj1 hj2
    cases hcc : ("currency:".data).isPrefixOf
        ((lowerL (pre ++ ("Currency: USD".data ++ (mid ++ ("Currency: EUR".data ++ post))))).drop j) with
    | false => rfl
    | true => rcases hocc j hcc with h | h <;> omega
  have hfind3 : pyFind
      (lowerL (pre ++ ("Currency: USD".data ++ (mid ++ ("Currency: EUR".data ++ post)))))
      ("currency:".data) (pre.length + (13 + mid.length) + 9) = none := by
    refine pyFind_none_intro ?_
    intro j hj
    cases hcc : ("currency:".data).isPrefixOf
        ((lowerL (pre ++ ("Currency: USD".data ++ (mid ++ ("Currency: EUR".data ++ post))))).drop j) with
    | false => rfl
    | true => rcases hocc j hcc with h | h <;> omega
  have hdrop1 : (pre ++ ("Currency: USD".data ++ (mid ++ ("Currency: EUR".data ++ post)))).drop
      pre.length = "Currency: USD".data ++ (mid ++ ("Currency: EUR".data ++ post)) :=
    List.drop_left pre _
  have hdrop2 : (pre ++ ("Currency: USD".data ++ (mid ++ ("Currency: EUR".data ++ post)))).drop
      (pre.length + (13 + mid.length)) = "Currency: EUR".data ++ post := by
    rw [show pre ++ ("Currency: USD".data ++ (mid ++ ("Currency: EUR".data ++ post)))
        = (pre ++ ("Currency: USD".data ++ mid)) ++ ("Currency: EUR".data ++ post)
        from by simp [List.append_assoc]]
    rw [show pre.length + (13 + mid.length) = (pre ++ ("Currency: USD".data ++ mid)).length from by
      simp [List.length_append]
      omega]
    rw [List.drop_left]
  have hctx1 : get_context
      ((pre ++ ("Currency: USD".data ++ (mid ++ ("Currency: EUR".data ++ post)))).drop pre.length)
      ("Currency:".data) = "USD".data := by
    rw [hdrop1]
    rw [show "Currency: USD".data ++ (mid ++ ("Currency: EUR".data ++ post))
        = ("Currency: ".data ++ "USD".data) ++ (mid ++ ("Currency: EUR".data ++ post)) from rfl]
    refine (get_context_currency_block (by decide) (by decide) (by decide) ?_).trans (by decide)
    rw [head?_append_left hmidne]
    exact hmid
  have hctx2 : get_context
      ((pre ++ ("Currency: USD".data ++ (mid ++ ("Currency: EUR".data ++ post)))).drop
        (pre.length + (13 + mid.length))) ("Currency:".data) = "EUR".data := by
    rw [hdrop2]
    rw [show "Currency: EUR".data ++ post = ("Currency: ".data ++ "EUR".data) ++ post from rfl]
    exact (get_context_currency_block (by decide) (by decide) (by decide) hpost).trans (by decide)
  rw [occLoop_currency_step st hfind1 hctx1 (by decide)]
  rw [occLoop_currency_step _ hfind2 hctx2 (by decide)]
  rw [occLoop_currency_end _ hfind3]

/-- Occurrence conditions only need checking inside the haystack. -/
lemma occurrences_bounded {hay nee : List Char} (hne : nee ≠ []) (P : Nat → Prop)
    (h : ∀ j, j < hay.length → nee.isPrefixOf (hay.drop j) = true → P j) :
    ∀ j, nee.isPrefixOf (hay.drop j) = true → P j := by
  intro j hj
  by_cases hlt : j < hay.length
  · exact h j hlt hj
  · exfalso
    rw [List.drop_eq_nil_of_le (by omega)] at hj
    cases nee with
    | nil => exact hne rfl
    | cons x xs => cases hj

/-- The `"Currency:"` step of the keyword fold never skips. -/
lemma kwStep_currency (fullText : List Char) (st : SearchState) :
    kwStep fullText st ("Currency:".data) = occLoop fullText ("Currency:".data) 0 st := by
  unfold kwStep
  rw [if_neg (fun hcon => absurd hcon.1 (by decide))]

/-- C3 counterexample: the claim quantifies over every document merely
containing `"Currency: USD"` and later `"Currency: EUR"`; in
`"Currency: USD Currency: EURO"` both substrings occur (the second at
index 14), yet the currency field ends as `"EURO"`, not `"EUR"`. -/
theorem C3_counterexample :
    ("Currency: USD".data).isPrefixOf (("Currency: USD Currency: EURO".data).drop 0) = true ∧
    ("Currency: EUR".data).isPrefixOf (("Currency: USD Currency: EURO".data).drop 14) = true ∧
    (searchText "doc.pdf" keywordsList ("Currency: USD Currency: EURO".data)).currency =
      "EURO".data ∧
    "EURO".data ≠ "EUR".data := by
  refine ⟨by decide, by decide, ?_, by decide⟩
  rw [searchText_eq_F]
  decide

/-- C3 (amended): currency is last-match-wins.  For every document of the
form `pre ++ "Currency: USD" ++ mid ++ "Currency: EUR" ++ post` whose
only case-insensitive `"currency:"` occurrences are the two shown, where
`mid` separates the blocks starting with a non-word character and `post`
starts with a non-word character or is empty (so each value ends at its
word), the scan visits both occurrences without short-circuiting and the
record's currency field ends as the later value `"EUR"`. -/
theorem C3_currency_last_occurrence :
    ∀ (path : String) (pre mid post : List Char),
      (∀ c ∈ mid.head?, isPyWord c = false) → mid ≠ [] →
      (∀ c ∈ post.head?, isPyWord c = false) →
      (∀ j, ("currency:".data).isPrefixOf
          ((lowerL (pre ++ "Currency: USD".data ++ mid ++ "Currency: EUR".data ++ post)).drop j)
          = true → j = pre.length ∨ j = pre.length + (13 + mid.length)) →
      (searchText path keywordsList
        (pre ++ "Currency: USD".data ++ mid ++ "Currency: EUR".data ++ post)).currency =
        "EUR".data := by
  intro path pre mid post hmid hmidne hpost hocc
  have hassoc : pre ++ "Currency: USD".data ++ mid ++ "Currency: EUR".data ++ post
      = pre ++ ("Currency: USD".data ++ (mid ++ ("Currency: EUR".data ++ post))) := by
    simp [List.append_assoc]
  rw [hassoc]
  rw [hassoc] at hocc
  unfold searchText
  simp only [keywordsList, List.foldl]
  rw [kwStep_currency]
  rw [occLoop_currency_trace pre mid post hmid hmidne hpost hocc _]

/-- Witness for the amended C3 on a concrete two-occurrence document. -/
theorem C3_witness :
    (searchText "w.pdf" keywordsList
      ("a ".data ++ "Currency: USD".data ++ " b ".data ++ "Currency: EUR".data ++ " c".data)).currency
      = "EUR".data :=
  C3_currency_last_occurrence "w.pdf" ("a ".data) (" b ".data) (" c".data)
    (by decide) (by decide) (by decide)
    (occurrences_bounded (by decide) _ (by decide))
